import Mathlib

/-!
Verification of the checkpoint tracker in `gensx/core/checkpoint.py`.

The development shallowly embeds the `CheckpointManager` class and the value
universe it manipulates.  Python objects are modelled as finite trees whose
composite nodes carry an identity tag (a `Nat` standing for the CPython
`id(...)` of the object); a tag repeated along a descent path models a cyclic
reference.  Python `dict`s are modelled as insertion-ordered association
lists, matching CPython dict semantics.  Python `set`s do not preserve
insertion order, so every place the source iterates over a set of nodes takes
the iteration order as an explicit argument constrained to be a permutation
of the set's elements.
-/

namespace GensxCheckpoint

/-- Association-list lookup, first match wins (Python dict keys are unique). -/
def assocLookup {α : Type} (l : List (String × α)) (k : String) : Option α :=
  match l with
  | [] => none
  | (k', v) :: t => if k' = k then some v else assocLookup t k

/-- Python `d[k] = v`: replace the value in place if the key exists (keeping
its position, as CPython dicts do), otherwise append at the end. -/
def assocSet {α : Type} (l : List (String × α)) (k : String) (v : α) :
    List (String × α) :=
  match l with
  | [] => [(k, v)]
  | (k', v') :: t => if k' = k then (k, v) :: t else (k', v') :: assocSet t k v

/-- Python `del d[k]`: remove the (unique) binding of `k`. -/
def assocErase {α : Type} (l : List (String × α)) (k : String) :
    List (String × α) :=
  match l with
  | [] => []
  | (k', v') :: t => if k' = k then t else (k', v') :: assocErase t k

/-- Python `set.update`: add the members of `ys` that are not already
present.  CPython set iteration order is unspecified; the model keeps the
order in which elements were added, and every theorem below that depends on
an order either fixes concrete contents or quantifies over permutations. -/
def listUnion (xs ys : List String) : List String :=
  xs ++ ys.filter fun y => ¬ xs.contains y

/--
The universe of Python values handled by the tracker.  Composite values
(`vlist`, `vdict`) and foreign objects carry an identity tag modelling
`id(obj)`.  Callables are `vfunc native`, where `native = true` means
`_is_native_function` holds (callable, has `__name__`, and its `str` contains
"[native code]").  Foreign objects are split by the duck-typing tests of
`_clone_value`: `vobjJson` has a callable `to_json`, `vobjFields` only has a
`__dict__`, `vobjStr` has neither and is rendered by `str`, and `vraising`
raises when serialization touches it.  Floats carry their `str` rendering,
which is the only way `_scrub_data` ever observes them.
-/
inductive PyVal where
  | vnone : PyVal
  | vbool : Bool → PyVal
  | vint : Int → PyVal
  | vfloat : String → PyVal
  | vstr : String → PyVal
  | vfunc : Bool → PyVal
  | vlist : Nat → List PyVal → PyVal
  | vdict : Nat → List (String × PyVal) → PyVal
  | vobjJson : Nat → PyVal → PyVal
  | vobjFields : Nat → List (String × PyVal) → PyVal
  | vobjStr : Nat → String → PyVal
  | vraising : Nat → PyVal

/-- Python `str(bool)`. -/
def pyBoolStr (b : Bool) : String := if b then "True" else "False"

/-
`CheckpointManager._clone_value`.  `visited` is the set of object ids on the
current descent path: the Python code adds the id before recursing and
discards it in a `finally`, which is exactly functional path passing.
Primitives are returned as-is; a tag already on the path yields the circular
marker; callables yield opaque markers (the identity check that Python
performs first can never fire on a callable, since nothing recurses into
one); lists and dicts are copied recursively; objects with `to_json` are
cloned through it; objects with `__dict__` become a dict of their public
fields; other objects fall back to `str`; a value that raises during
serialization degrades to the unserializable marker for that value alone
(the `except` sits in that value's own frame).
-/
mutual

/-- See the module-level comment right above this mutual block. -/
def cloneValue (visited : List Nat) : PyVal → PyVal
  | .vnone => .vnone
  | .vbool b => .vbool b
  | .vint n => .vint n
  | .vfloat r => .vfloat r
  | .vstr s => .vstr s
  | .vfunc native => .vstr (if native then "[native function]" else "[function]")
  | .vlist tag items =>
      if tag ∈ visited then .vstr "[circular reference]"
      else .vlist tag (cloneList (tag :: visited) items)
  | .vdict tag entries =>
      if tag ∈ visited then .vstr "[circular reference]"
      else .vdict tag (cloneEntries (tag :: visited) entries)
  | .vobjJson tag payload =>
      if tag ∈ visited then .vstr "[circular reference]"
      else cloneValue (tag :: visited) payload
  | .vobjFields tag fields =>
      if tag ∈ visited then .vstr "[circular reference]"
      else .vdict tag (cloneFields (tag :: visited) fields)
  | .vobjStr tag s =>
      if tag ∈ visited then .vstr "[circular reference]"
      else .vstr s
  | .vraising tag =>
      if tag ∈ visited then .vstr "[circular reference]"
      else .vstr "[unserializable]"

/-- The list comprehension inside `_clone_value` for lists. -/
def cloneList (visited : List Nat) : List PyVal → List PyVal
  | [] => []
  | x :: xs => cloneValue visited x :: cloneList visited xs

/-- The dict comprehension inside `_clone_value` (values cloned, keys kept). -/
def cloneEntries (visited : List Nat) :
    List (String × PyVal) → List (String × PyVal)
  | [] => []
  | (k, v) :: xs => (k, cloneValue visited v) :: cloneEntries visited xs

/-- The `__dict__` comprehension inside `_clone_value`: only public fields
(names not starting with an underscore) are kept and cloned; private fields
are skipped before their values are ever touched. -/
def cloneFields (visited : List Nat) :
    List (String × PyVal) → List (String × PyVal)
  | [] => []
  | (k, v) :: xs =>
      if k.startsWith "_" then cloneFields visited xs
      else (k, cloneValue visited v) :: cloneFields visited xs

end

/-- `pat.isPrefixOf s` on character lists (spelled out so all lemmas about
substring replacement are self-contained). -/
def isPref : List Char → List Char → Bool
  | [], _ => true
  | _ :: _, [] => false
  | p :: ps, c :: cs => p == c && isPref ps cs

/-- Python `pat in s` (substring test). -/
def containsSub (s pat : List Char) : Bool :=
  match s with
  | [] => pat.isEmpty
  | _ :: rest => isPref pat s || containsSub rest pat

/-- Scanning loop of `replaceAll`.  `fuel` bounds the number of characters
consumed; every step consumes at least one, so `fuel = s.length` makes the
`0` case unreachable for a non-empty pattern. -/
def replaceAllGo (pat rep : List Char) : Nat → List Char → List Char
  | _, [] => []
  | 0, s => s
  | fuel + 1, c :: rest =>
      if isPref pat (c :: rest) then
        rep ++ replaceAllGo pat rep fuel (rest.drop (pat.length - 1))
      else c :: replaceAllGo pat rep fuel rest

/-- `re.sub(re.escape(pat), rep, s)`: replace every non-overlapping
occurrence of `pat`, scanning left to right. -/
def replaceAll (s pat rep : List Char) : List Char :=
  if pat.isEmpty then s else replaceAllGo pat rep s.length s

/-- Substring test on `String`. -/
def pyContains (s pat : String) : Bool := containsSub s.toList pat.toList

/-- Replace-all on `String`. -/
def pyReplaceAll (s pat rep : String) : String :=
  String.mk (replaceAll s.toList pat.toList rep.toList)

/-- Stable insertion keeping the list sorted by length, descending; an
element of equal length is placed after the ones already present, matching
Python's stable `list.sort(key=len, reverse=True)`. -/
def insertLenDesc (s : String) : List String → List String
  | [] => [s]
  | t :: ts => if s.length ≤ t.length then t :: insertLenDesc s ts else s :: t :: ts

/-- `secrets.sort(key=len, reverse=True)`. -/
def sortByLenDesc (l : List String) : List String :=
  l.foldl (fun acc s => insertLenDesc s acc) []

/-- `CheckpointManager.MIN_SECRET_LENGTH`. -/
def MIN_SECRET_LENGTH : Nat := 8

/--
`CheckpointManager._scrub_string`, with the effective secrets (already a
list of strings: the registry only ever stores strings) passed in; the
Python method recomputes them from the current-node chain on every call, but
the chain cannot change during one synchronous scrub.  Secrets shorter than
`MIN_SECRET_LENGTH` are dropped, the rest are sorted longest first, and each
one found in the intermediate result is substituted by `"[secret]"`.
-/
def scrubString (effective : List String) (value : String) : String :=
  let secrets := effective.filter fun s => MIN_SECRET_LENGTH ≤ s.length
  let sorted := sortByLenDesc secrets
  sorted.foldl
    (fun res secret =>
      if pyContains res secret then pyReplaceAll res secret "[secret]" else res)
    value

/-
`CheckpointManager._scrub_data`.  The branch order follows the source:
native callables, then ordinary callables, then the `isinstance(data, (str,
int, float))` branch — which in Python also captures `bool`, a subclass of
`int`, so booleans are stringified to `"True"`/`"False"` and scrubbed as
text; the later `isinstance(data, bool)` test is therefore dead for
booleans and only `None` survives it unchanged.  Lists and dicts recurse
with path-based cycle detection; any other object is returned as-is.
-/
mutual

/-- See the module-level comment right above this mutual block. -/
def scrub_data (secrets : List String) (visited : List Nat) : PyVal → PyVal
  | .vfunc true => .vstr "[native function]"
  | .vfunc false => .vstr "[function]"
  | .vstr v => .vstr (scrubString secrets v)
  | .vint n => .vstr (scrubString secrets (toString n))
  | .vfloat r => .vstr (scrubString secrets r)
  | .vbool b => .vstr (scrubString secrets (pyBoolStr b))
  | .vnone => .vnone
  | .vlist tag items =>
      if tag ∈ visited then .vstr "[circular reference]"
      else .vlist tag (scrubList secrets (tag :: visited) items)
  | .vdict tag entries =>
      if tag ∈ visited then .vstr "[circular reference]"
      else .vdict tag (scrubEntries secrets (tag :: visited) entries)
  | .vobjJson tag payload => .vobjJson tag payload
  | .vobjFields tag fields => .vobjFields tag fields
  | .vobjStr tag s => .vobjStr tag s
  | .vraising tag => .vraising tag

/-- The list comprehension inside `_scrub_data`. -/
def scrubList (secrets : List String) (visited : List Nat) : List PyVal → List PyVal
  | [] => []
  | x :: xs => scrub_data secrets visited x :: scrubList secrets visited xs

/-- The dict comprehension inside `_scrub_data` (values scrubbed, keys kept). -/
def scrubEntries (secrets : List String) (visited : List Nat) :
    List (String × PyVal) → List (String × PyVal)
  | [] => []
  | (k, v) :: xs => (k, scrub_data secrets visited v) :: scrubEntries secrets visited xs

end

/-- Truthiness of an `Optional[str]` under Python `if x:`: `None` and the
empty string are falsy. -/
def truthyOptStr : Option String → Bool
  | none => false
  | some s => s ≠ ""

/--
One execution node (`ExecutionNodeDict`).  Python stores child *object
references*; since every node object lives in the manager's `nodes` dict
under its `id` and is never removed, the model stores child ids and reads
nodes back through the store — aliasing through the shared objects is then
exactly sharing of the store entry.  `output` starts as Python `None`
(`PyVal.vnone`); `metadata` starts as a fresh empty dict.  `component_opts`
holds the *cloned* options payload (`_clone_value` turns the `ComponentOpts`
object into a plain dict of its public fields).
-/
structure ENode where
  id : String
  component_name : String
  start_time : Nat
  props : PyVal
  parent_id : Option String
  children : List String
  output : PyVal
  end_time : Option Nat
  metadata : List (String × PyVal)
  component_opts : Option PyVal

/--
The mutable state of a `CheckpointManager`.  `orphaned` maps an expected
parent id to the bucket of waiting orphan node ids (a Python `set`; the
model records insertion order, and every iteration over a bucket takes the
actual order as a permutation argument).  `secretValues` is the per-node
secret registry (`_secret_values`); `chain` is `current_node_chain`.
`activeCheckpoint` means "a flush task exists and is not done";
`flushesStarted` counts `asyncio.create_task` calls issued for flushes (a
history variable, not part of the Python state).
-/
structure CMState where
  nodes : List (String × ENode)
  orphaned : List (String × List String)
  secretValues : List (String × List String)
  chain : List String
  root : Option String
  checkpointsEnabled : Bool
  activeCheckpoint : Bool
  pendingUpdate : Bool
  flushesStarted : Nat

/-- The state right after `CheckpointManager.__init__` (with `enabled` the
resulting `checkpoints_enabled` flag). -/
def initialState (enabled : Bool) : CMState :=
  { nodes := [], orphaned := [], secretValues := [], chain := [], root := none,
    checkpointsEnabled := enabled, activeCheckpoint := false,
    pendingUpdate := false, flushesStarted := 0 }

/-- `CheckpointManager._get_effective_secrets`, generalized over the chain
it reads: the union of the secret sets of every node id on the chain. -/
def effectiveSecretsFor (s : CMState) (chain : List String) : List String :=
  chain.foldl (fun acc nid => listUnion acc ((assocLookup s.secretValues nid).getD [])) []

/-- `CheckpointManager._get_effective_secrets` on the current chain. -/
def getEffectiveSecrets (s : CMState) : List String :=
  effectiveSecretsFor s s.chain

/--
`CheckpointManager._scrub_secrets(data, node_id)`.  With a truthy node id
the scrub runs inside `_with_node`, which appends the id to
`current_node_chain` for the duration; `_scrub_string` then sees the union
of the secrets of the chain plus that node.  The chain cannot change during
the synchronous scrub, so the effective secrets are computed once.
-/
def scrub_secrets (s : CMState) (data : PyVal) (nodeId : Option String) : PyVal :=
  if truthyOptStr nodeId then
    scrub_data (effectiveSecretsFor s (s.chain ++ nodeId.toList)) [] data
  else
    scrub_data (getEffectiveSecrets s) [] data

/-- First half of `_attach_to_parent`: `node.parent_id = parent.id`. -/
def setChildParentId (s : CMState) (childId : String) (pid : String) : CMState :=
  match assocLookup s.nodes childId with
  | none => s
  | some child =>
      { s with nodes := assocSet s.nodes childId { child with parent_id := some pid } }

/-- Second half of `_attach_to_parent`: append the child to the parent's
children unless a child with the same id is already present. -/
def appendChild (s : CMState) (parentKey childId : String) : CMState :=
  match assocLookup s.nodes parentKey with
  | none => s
  | some parent =>
      if parent.children.any fun cid => cid = childId then s
      else
        let parent' := { parent with children := parent.children ++ [childId] }
        { s with nodes := assocSet s.nodes parentKey parent' }

/--
`CheckpointManager._attach_to_parent` by store keys: set the child's
`parent_id` to the parent's `id` field (read before the update, as in the
source), then append the child to the parent's children unless a child with
the same id is already there.  The parent entry is re-read after the child
update so that the self-attachment case (`childId = parentKey`) mutates the
single underlying object, as in Python.
-/
def attach_to_parent (s : CMState) (childId parentKey : String) : CMState :=
  match assocLookup s.nodes parentKey with
  | none => s
  | some parent => appendChild (setChildParentId s childId parent.id) parentKey childId

/-- `CheckpointManager._handle_orphaned_node`: ensure a bucket exists for
the expected parent and add the node to it.  The Python bucket is a set of
node objects; the node being added was just constructed, so `set.add`
always inserts a new element — recorded here by appending, which also keeps
the insertion order.  (The five-second stuck-orphan diagnostic task only
prints and is not modelled.) -/
def handle_orphaned (s : CMState) (nodeId expectedParent : String) : CMState :=
  match assocLookup s.orphaned expectedParent with
  | none =>
      { s with orphaned := s.orphaned ++ [(expectedParent, [nodeId])] }
  | some bucket =>
      { s with orphaned := assocSet s.orphaned expectedParent (bucket ++ [nodeId]) }

/--
The inner `verify_node` of `CheckpointManager._is_tree_valid`: every child
must record this node's `id` as its parent id, recursively.  The Python
recursion walks child objects directly; the model resolves child ids
through the store (a dangling child id cannot arise through the API and is
treated as vacuously fine, like the corresponding unreachable Python
state).  `fuel` bounds the recursion depth; exhausted fuel answers `true`
vacuously.  On any store whose root-reachable part is a tree, a root path
never repeats a node, so `nodes.length + 1` fuel is never exhausted and the
function computes exactly the Python recursion (on a cyclic store Python
does not terminate, so no claim evaluates it there).
-/
def verify_node (s : CMState) : Nat → String → Bool
  | 0, _ => true
  | fuel + 1, nid =>
    match assocLookup s.nodes nid with
    | none => true
    | some node =>
        node.children.all fun cid =>
          (match assocLookup s.nodes cid with
           | none => true
           | some child => child.parent_id == some node.id) &&
          verify_node s fuel cid

/-- `CheckpointManager._is_tree_valid`: a root exists, the orphan map is
empty (`if self.orphaned_nodes:` — buckets are never left empty, so dict
truthiness is emptiness of the map), and `verify_node` accepts the root. -/
def is_tree_valid (s : CMState) : Bool :=
  match s.root with
  | none => false
  | some rid =>
      if s.orphaned.isEmpty then verify_node s (s.nodes.length + 1) rid
      else false

/--
`CheckpointManager._update_checkpoint`.  Disabled: no-op.  Tree invalid:
set the deferred/pending flag and return.  A flush in flight: set the
pending-retry flag and return.  Otherwise start one flush task (recorded by
`activeCheckpoint` and the `flushesStarted` history counter).
-/
def update_checkpoint (s : CMState) : CMState :=
  if !s.checkpointsEnabled then s
  else if !is_tree_valid s then { s with pendingUpdate := true }
  else if s.activeCheckpoint then { s with pendingUpdate := true }
  else { s with activeCheckpoint := true, flushesStarted := s.flushesStarted + 1 }

/--
The `finally` block of `write_and_handle_pending` in
`_update_checkpoint`, i.e. what happens when the in-flight flush finishes
(success, failure and cancellation all reach it): drop the task handle,
and if a pending update was requested while flushing, clear it and call
`_update_checkpoint` again.
-/
def checkpoint_finished (s : CMState) : CMState :=
  let s1 := { s with activeCheckpoint := false }
  if s1.pendingUpdate then update_checkpoint { s1 with pendingUpdate := false }
  else s1

/--
The caller-supplied payload of `add_node` (`partial_node`), before cloning:
the values stored in the dict under the keys `"component_name"`, `"props"`
and `"component_opts"`, each `none` when the key is absent.  The component
name is always a string in every caller.  `_clone_value` of the payload
dict clones each value independently (the dict's own identity never recurs
inside its values), so the model clones field by field.
-/
structure NodeSpec where
  component_name : Option String
  props : Option PyVal
  component_opts : Option PyVal

/-- The `ExecutionNodeDict` constructed inside `add_node` from the cloned
payload; `.get` defaults are `"Unknown"` for the name and a fresh empty
dict for the props. -/
def mkNode (pn : NodeSpec) (parentId : Option String) (freshId : String)
    (startTime : Nat) : ENode :=
  { id := freshId
  , component_name := pn.component_name.getD "Unknown"
  , start_time := startTime
  , props := match pn.props with
             | some p => cloneValue [] p
             | none => .vdict 0 []
  , parent_id := parentId
  , children := []
  , output := .vnone
  , end_time := none
  , metadata := []
  , component_opts := pn.component_opts.map (cloneValue []) }

/-- The orphan bucket currently waiting for `pid`, empty if none. -/
def bucketOf (s : CMState) (pid : String) : List String :=
  (assocLookup s.orphaned pid).getD []

/-- The orphan-adoption step at the end of `add_node`: if orphans are
waiting for the just-created node (`if waiting_children:` — empty-set
truthiness included), attach each of them in the set's iteration order
(`iter`) and delete the bucket. -/
def adopt_waiting (s : CMState) (fid : String) (iter : List String) : CMState :=
  match assocLookup s.orphaned fid with
  | none => s
  | some bucket =>
      if bucket.isEmpty then s
      else
        let s' := iter.foldl (fun acc oid => attach_to_parent acc oid fid) s
        { s' with orphaned := assocErase s'.orphaned fid }

/--
`CheckpointManager.add_node`.  `freshId` stands for the generated UUID and
`bucketIter` for the iteration order of `list(waiting_children)` — a
permutation of the bucket, since CPython sets iterate in an unspecified
order.  The secret-registration branch of the source
(`if node.component_opts and hasattr(node.component_opts, 'secret_props')`)
is unreachable: `node.component_opts` is the *cloned* options value, a
plain dict / string marker / `None`, and none of those Python values has a
`secret_props` attribute (dict keys are not attributes), so `hasattr`
is always false and no registration happens; the model elides the dead
branch.  Everything else follows the source line by line.
-/
def add_node (s : CMState) (pn : NodeSpec) (parentId : Option String)
    (freshId : String) (startTime : Nat) (bucketIter : List String) :
    CMState × String :=
  let node := mkNode pn parentId freshId startTime
  let s1 := { s with nodes := assocSet s.nodes freshId node }
  let s2 :=
    if truthyOptStr parentId then
      match parentId with
      | some pid =>
        match assocLookup s1.nodes pid with
        | some _ => attach_to_parent s1 freshId pid
        | none => handle_orphaned s1 freshId pid
      | none => s1
    else
      match s1.root with
      | none => { s1 with root := some freshId }
      | some rid =>
        match assocLookup s1.nodes rid with
        | some rnode =>
            if rnode.parent_id == some freshId then
              { attach_to_parent s1 rid freshId with root := some freshId }
            else s1
        | none => s1
  let s3 := adopt_waiting s2 freshId bucketIter
  let s4 :=
    if !truthyOptStr parentId && s3.root == some freshId then update_checkpoint s3
    else s3
  (s4, freshId)

/--
`CheckpointManager.complete_node`.  Unknown id: print a diagnostic and do
nothing.  Otherwise set the end time, store the *cloned* output and trigger
a persistence cycle.  The output-secret branch is dead for the same reason
as in `add_node`: the stored `component_opts` is a cloned plain value with
no `secret_outputs` attribute.
-/
def complete_node (s : CMState) (id : String) (output : PyVal) (endTime : Nat) :
    CMState :=
  match assocLookup s.nodes id with
  | none => s
  | some node =>
      let node' := { node with end_time := some endTime, output := cloneValue [] output }
      update_checkpoint { s with nodes := assocSet s.nodes id node' }

/-- Python `dict.update`: existing keys keep their position and get the new
value, new keys are appended in update order. -/
def pyDictUpdate (base updates : List (String × PyVal)) :
    List (String × PyVal) :=
  updates.foldl (fun acc kv => assocSet acc kv.1 kv.2) base

/-- `CheckpointManager.add_metadata`: merge the given mapping into the
node's metadata via `dict.update` — the values are stored as given, with no
`_clone_value` pass — then trigger persistence.  Unknown id: no-op. -/
def add_metadata (s : CMState) (id : String) (metadata : List (String × PyVal)) :
    CMState :=
  match assocLookup s.nodes id with
  | none => s
  | some node =>
      let node' := { node with metadata := pyDictUpdate node.metadata metadata }
      update_checkpoint { s with nodes := assocSet s.nodes id node' }

/-
`CheckpointManager.update_node` (below) is restricted to the attributes
that hold JSON-like data (`output`, `metadata`, `props`) — the ones every
caller and the spec's `patch` description use; `setattr` on the remaining
attributes (timestamps, ids, children) would store a cloned `PyVal` into a
differently-typed slot and is outside the model.  Each applied value is
cloned.  The output-secret branch is dead as in `complete_node`.  Unknown
id: no-op.
-/

/-- One `setattr(node, key, self._clone_value(value))` step of
`update_node`, for the JSON-bearing attributes the model covers. -/
def applyUpdate (n : ENode) (kv : String × PyVal) : ENode :=
  if kv.1 = "output" then { n with output := cloneValue [] kv.2 }
  else if kv.1 = "metadata" then
    { n with metadata := match cloneValue [] kv.2 with
                         | .vdict _ entries => entries
                         | _ => n.metadata }
  else if kv.1 = "props" then { n with props := cloneValue [] kv.2 }
  else n

def update_node (s : CMState) (id : String) (updates : List (String × PyVal)) :
    CMState :=
  match assocLookup s.nodes id with
  | none => s
  | some node =>
      update_checkpoint
        { s with nodes := assocSet s.nodes id (updates.foldl applyUpdate node) }

/-- The dict produced by `_mask_execution_tree` (the `to_dict` rendering
with `props`/`output`/`metadata` scrubbed and children masked
recursively). -/
structure MaskedNode where
  id : String
  componentName : String
  startTime : Nat
  endTime : Option Nat
  props : PyVal
  output : PyVal
  children : List MaskedNode
  metadata : List (String × PyVal)
  parentId : Option String

/--
`CheckpointManager._mask_execution_tree`, keyed by node id.  Each node's
props are always scrubbed with that node's id as active node; the output
only when it `is not None`; the metadata only when the dict is non-empty
(scrubbing it pushes the metadata dict's own identity, whose tag the model
fixes at `0`: the scenarios proved below never scrub non-empty metadata
containing tag `0`).  `fuel` bounds recursion depth as in `verify_node`.
-/
def mask_execution_tree (s : CMState) : Nat → String → Option MaskedNode
  | 0, _ => none
  | fuel + 1, nid =>
    match assocLookup s.nodes nid with
    | none => none
    | some node =>
      match node.children.mapM (mask_execution_tree s fuel) with
      | none => none
      | some cs =>
          some
            { id := node.id
            , componentName := node.component_name
            , startTime := node.start_time
            , endTime := node.end_time
            , props := scrub_secrets s node.props (some node.id)
            , output := match node.output with
                        | .vnone => .vnone
                        | out => scrub_secrets s out (some node.id)
            , children := cs
            , metadata := if node.metadata.isEmpty then node.metadata
                          else match scrub_secrets s (.vdict 0 node.metadata) (some node.id) with
                               | .vdict _ entries => entries
                               | _ => node.metadata
            , parentId := node.parent_id }

/-! ### Spec-side reformulation of structural validity (for C2)

These definitions follow the words of the specification — "a root exists,
the orphan set is empty, and, recursively from the root, every child's
recorded parent id equals its actual parent's id" — rather than the code,
and are compared with `is_tree_valid` in the C2 theorem. -/

/-- The nodes reachable from `nid` by following child links, cut off at the
given depth (`verify_node` uses `nodes.length + 1`, which covers every
root path of a tree-shaped store). -/
def reachableWithin (s : CMState) : Nat → String → List String
  | 0, _ => []
  | fuel + 1, nid =>
    nid :: (match assocLookup s.nodes nid with
            | none => []
            | some node => (node.children.map (reachableWithin s fuel)).flatten)

/-- Spec: every child of `nid` records `nid`'s node (its actual parent) as
its parent id. -/
def childrenLinkedOk (s : CMState) (nid : String) : Prop :=
  match assocLookup s.nodes nid with
  | none => True
  | some node =>
      ∀ cid ∈ node.children,
        match assocLookup s.nodes cid with
        | none => True
        | some child => child.parent_id = some node.id

/-- Spec §4.1, `isStructurallyValid`: a root exists, the orphan set is
empty, and every node reachable from the root has correctly linked
children. -/
def specStructurallyValid (s : CMState) : Prop :=
  match s.root with
  | none => False
  | some rid =>
      s.orphaned = [] ∧
      ∀ nid ∈ reachableWithin s (s.nodes.length + 1) rid, childrenLinkedOk s nid

/-! ### Lemmas about substring replacement -/

theorem isPref_self (l : List Char) : isPref l l = true := by
  induction l with
  | nil => rfl
  | cons c cs ih => simp [isPref, ih]

theorem containsSub_self (l : List Char) : containsSub l l = true := by
  cases l with
  | nil => rfl
  | cons c cs => simp [containsSub, isPref_self]

theorem replaceAllGo_of_not_contains (pat rep : List Char)
    (fuel : Nat) (s : List Char) (h : containsSub s pat = false) :
    replaceAllGo pat rep fuel s = s := by
  induction fuel generalizing s with
  | zero => cases s <;> rfl
  | succ n ih =>
    cases s with
    | nil => rfl
    | cons c rest =>
      simp only [containsSub, Bool.or_eq_false_iff] at h
      simp [replaceAllGo, h.1, ih rest h.2]

theorem replaceAll_of_not_contains (s pat rep : List Char)
    (h : containsSub s pat = false) : replaceAll s pat rep = s := by
  unfold replaceAll
  split
  · rfl
  · exact replaceAllGo_of_not_contains pat rep s.length s h

theorem replaceAllGo_exact (pat rep : List Char) (hne : pat ≠ []) (fuel : Nat) :
    replaceAllGo pat rep (fuel + 1) pat = rep := by
  cases pat with
  | nil => exact absurd rfl hne
  | cons c cs =>
    simp only [replaceAllGo, isPref_self, if_true]
    have hdrop : cs.drop ((c :: cs).length - 1) = [] := by
      simp [List.length_cons]
    rw [hdrop]
    cases fuel <;> simp [replaceAllGo]

/-- Replacing a string by the pattern it entirely consists of yields the
replacement. -/
theorem replaceAll_exact (pat rep : List Char) (hne : pat ≠ []) :
    replaceAll pat pat rep = rep := by
  unfold replaceAll
  have hempty : pat.isEmpty = false := by
    cases pat with
    | nil => exact absurd rfl hne
    | cons c cs => rfl
  rw [hempty]
  cases pat with
  | nil => exact absurd rfl hne
  | cons c cs =>
      simpa using replaceAllGo_exact (c :: cs) rep hne cs.length

theorem stringMk_toList (s : String) : String.mk s.toList = s := rfl

theorem pyReplaceAll_of_not_contains (s pat rep : String)
    (h : pyContains s pat = false) : pyReplaceAll s pat rep = s := by
  unfold pyReplaceAll
  rw [replaceAll_of_not_contains _ _ _ h]
  exact stringMk_toList s

theorem pyReplaceAll_exact (pat rep : String) (hne : pat.toList ≠ []) :
    pyReplaceAll pat pat rep = rep := by
  unfold pyReplaceAll
  rw [replaceAll_exact _ _ hne]
  exact stringMk_toList rep

/-- Scrubbing with no effective secrets is the identity on strings. -/
theorem scrubString_nil (v : String) : scrubString [] v = v := rfl

/-- Scrubbing a string that is exactly a single effective secret of
admissible length yields exactly the redaction token. -/
theorem scrubString_single_exact (sec : String)
    (hlen : MIN_SECRET_LENGTH ≤ sec.length) :
    scrubString [sec] sec = "[secret]" := by
  have hne : sec.toList ≠ [] := by
    intro hnil
    have h0 : sec.toList.length = 0 := by rw [hnil]; rfl
    have h1 : sec.length = sec.toList.length := rfl
    rw [h1, h0] at hlen
    exact absurd hlen (by decide)
  have hcontains : pyContains sec sec = true := containsSub_self sec.toList
  have h2 : scrubString [sec] sec =
      if pyContains sec sec then pyReplaceAll sec sec "[secret]" else sec := by
    simp [scrubString, sortByLenDesc, insertLenDesc, hlen]
  rw [h2]
  simp [hcontains, pyReplaceAll_exact sec "[secret]" hne]

/-- The recursive `verify_node` accepts `nid` exactly when every node it
can reach within the given depth has correctly linked children. -/
theorem verify_node_iff (s : CMState) :
    ∀ (fuel : Nat) (nid : String),
      verify_node s fuel nid = true ↔
        ∀ m ∈ reachableWithin s fuel nid, childrenLinkedOk s m := by
  intro fuel
  induction fuel with
  | zero =>
      intro nid
      simp [verify_node, reachableWithin]
  | succ n ih =>
      intro nid
      simp only [verify_node, reachableWithin]
      cases hl : assocLookup s.nodes nid with
      | none =>
          have hok : childrenLinkedOk s nid := by
            unfold childrenLinkedOk; rw [hl]; trivial
          simp [hok]
      | some node =>
          simp only [List.all_eq_true, Bool.and_eq_true, List.mem_cons,
            List.mem_flatten, List.mem_map]
          constructor
          · rintro h m (rfl | ⟨l, ⟨cid, hcid, rfl⟩, hm⟩)
            · unfold childrenLinkedOk
              rw [hl]
              intro cid hcid
              have hp := (h cid hcid).1
              cases hc : assocLookup s.nodes cid with
              | none => trivial
              | some child =>
                  rw [hc] at hp
                  exact eq_of_beq hp
            · exact (ih cid).mp (h cid hcid).2 m hm
          · intro h cid hcid
            refine ⟨?_, (ih cid).mpr fun m hm => h m (Or.inr ⟨_, ⟨cid, hcid, rfl⟩, hm⟩)⟩
            have hcl := h nid (Or.inl rfl)
            unfold childrenLinkedOk at hcl
            rw [hl] at hcl
            have hp := hcl cid hcid
            cases hc : assocLookup s.nodes cid with
            | none => rfl
            | some child =>
                rw [hc] at hp
                simpa using hp

/-! ### Observers and preservation lemmas -/

/-- The children recorded on the node stored under `nid` (empty if absent). -/
def childrenOf (s : CMState) (nid : String) : List String :=
  ((assocLookup s.nodes nid).map ENode.children).getD []

theorem assocLookup_assocSet_self {α : Type} (l : List (String × α)) (k : String)
    (v : α) : assocLookup (assocSet l k v) k = some v := by
  induction l with
  | nil => simp [assocSet, assocLookup]
  | cons kv t ih =>
      by_cases h : kv.1 = k
      · simp [assocSet, assocLookup, h]
      · simp [assocSet, assocLookup, h, ih]

theorem assocLookup_assocSet_ne {α : Type} (l : List (String × α)) (k k' : String)
    (v : α) (h : k' ≠ k) : assocLookup (assocSet l k v) k' = assocLookup l k' := by
  induction l with
  | nil =>
      simp only [assocSet, assocLookup]
      rw [if_neg (Ne.symm h)]
  | cons kv t ih =>
      simp only [assocSet]
      by_cases hk : kv.1 = k
      · rw [if_pos hk]
        simp only [assocLookup]
        rw [if_neg (Ne.symm h), if_neg (hk ▸ Ne.symm h : ¬ kv.1 = k')]
      · rw [if_neg hk]
        simp only [assocLookup]
        by_cases hk' : kv.1 = k'
        · rw [if_pos hk', if_pos hk']
        · rw [if_neg hk', if_neg hk', ih]

theorem assocLookup_assocErase_ne {α : Type} (l : List (String × α)) (k k' : String)
    (h : k' ≠ k) : assocLookup (assocErase l k) k' = assocLookup l k' := by
  induction l with
  | nil => rfl
  | cons kv t ih =>
      simp only [assocErase]
      by_cases hk : kv.1 = k
      · rw [if_pos hk]
        simp only [assocLookup]
        rw [if_neg (hk ▸ Ne.symm h : ¬ kv.1 = k')]
      · rw [if_neg hk]
        simp only [assocLookup]
        by_cases hk' : kv.1 = k'
        · rw [if_pos hk', if_pos hk']
        · rw [if_neg hk', if_neg hk', ih]

theorem assocLookup_eq_none_of_not_mem {α : Type} (l : List (String × α))
    (k : String) (h : k ∉ l.map Prod.fst) : assocLookup l k = none := by
  induction l with
  | nil => rfl
  | cons kv t ih =>
      simp only [List.map_cons, List.mem_cons] at h
      push_neg at h
      simp only [assocLookup]
      rw [if_neg (Ne.symm h.1)]
      exact ih h.2

theorem assocLookup_assocErase_self {α : Type} (l : List (String × α)) (k : String)
    (hnd : (l.map Prod.fst).Nodup) : assocLookup (assocErase l k) k = none := by
  induction l with
  | nil => rfl
  | cons kv t ih =>
      simp only [List.map_cons, List.nodup_cons] at hnd
      simp only [assocErase]
      by_cases hk : kv.1 = k
      · rw [if_pos hk]
        exact assocLookup_eq_none_of_not_mem t k (hk ▸ hnd.1)
      · rw [if_neg hk]
        simp only [assocLookup]
        rw [if_neg hk]
        exact ih hnd.2

theorem setChildParentId_parts (s : CMState) (c : String) (pid : String) :
    (setChildParentId s c pid).orphaned = s.orphaned ∧
    (setChildParentId s c pid).root = s.root ∧
    (setChildParentId s c pid).secretValues = s.secretValues ∧
    (setChildParentId s c pid).chain = s.chain ∧
    (setChildParentId s c pid).checkpointsEnabled = s.checkpointsEnabled ∧
    (setChildParentId s c pid).activeCheckpoint = s.activeCheckpoint ∧
    (setChildParentId s c pid).pendingUpdate = s.pendingUpdate ∧
    (setChildParentId s c pid).flushesStarted = s.flushesStarted := by
  unfold setChildParentId
  cases assocLookup s.nodes c <;> exact ⟨rfl, rfl, rfl, rfl, rfl, rfl, rfl, rfl⟩

theorem appendChild_parts (s : CMState) (p c : String) :
    (appendChild s p c).orphaned = s.orphaned ∧
    (appendChild s p c).root = s.root ∧
    (appendChild s p c).secretValues = s.secretValues ∧
    (appendChild s p c).chain = s.chain ∧
    (appendChild s p c).checkpointsEnabled = s.checkpointsEnabled ∧
    (appendChild s p c).activeCheckpoint = s.activeCheckpoint ∧
    (appendChild s p c).pendingUpdate = s.pendingUpdate ∧
    (appendChild s p c).flushesStarted = s.flushesStarted := by
  unfold appendChild
  cases assocLookup s.nodes p with
  | none => exact ⟨rfl, rfl, rfl, rfl, rfl, rfl, rfl, rfl⟩
  | some parent =>
      dsimp only
      split <;> exact ⟨rfl, rfl, rfl, rfl, rfl, rfl, rfl, rfl⟩

/-- `attach_to_parent` only rewrites node entries: all other components of
the state are untouched. -/
theorem attach_to_parent_parts (s : CMState) (c p : String) :
    (attach_to_parent s c p).orphaned = s.orphaned ∧
    (attach_to_parent s c p).root = s.root ∧
    (attach_to_parent s c p).secretValues = s.secretValues ∧
    (attach_to_parent s c p).chain = s.chain ∧
    (attach_to_parent s c p).checkpointsEnabled = s.checkpointsEnabled ∧
    (attach_to_parent s c p).activeCheckpoint = s.activeCheckpoint ∧
    (attach_to_parent s c p).pendingUpdate = s.pendingUpdate ∧
    (attach_to_parent s c p).flushesStarted = s.flushesStarted := by
  unfold attach_to_parent
  cases assocLookup s.nodes p with
  | none => exact ⟨rfl, rfl, rfl, rfl, rfl, rfl, rfl, rfl⟩
  | some parent =>
      have h1 := setChildParentId_parts s c parent.id
      have h2 := appendChild_parts (setChildParentId s c parent.id) p c
      exact ⟨h2.1.trans h1.1, h2.2.1.trans h1.2.1, h2.2.2.1.trans h1.2.2.1,
        h2.2.2.2.1.trans h1.2.2.2.1, h2.2.2.2.2.1.trans h1.2.2.2.2.1,
        h2.2.2.2.2.2.1.trans h1.2.2.2.2.2.1, h2.2.2.2.2.2.2.1.trans h1.2.2.2.2.2.2.1,
        h2.2.2.2.2.2.2.2.trans h1.2.2.2.2.2.2.2⟩

/-- `update_checkpoint` only touches the persistence flags. -/
theorem update_checkpoint_parts (s : CMState) :
    (update_checkpoint s).nodes = s.nodes ∧
    (update_checkpoint s).orphaned = s.orphaned ∧
    (update_checkpoint s).secretValues = s.secretValues ∧
    (update_checkpoint s).chain = s.chain ∧
    (update_checkpoint s).root = s.root := by
  unfold update_checkpoint
  split
  · exact ⟨rfl, rfl, rfl, rfl, rfl⟩
  · split
    · exact ⟨rfl, rfl, rfl, rfl, rfl⟩
    · split <;> exact ⟨rfl, rfl, rfl, rfl, rfl⟩

/-- Setting a child's parent id changes nobody's children list. -/
theorem childrenOf_setChildParentId (s : CMState) (c : String) (pid : String)
    (q : String) : childrenOf (setChildParentId s c pid) q = childrenOf s q := by
  unfold setChildParentId childrenOf
  cases hc : assocLookup s.nodes c with
  | none => rfl
  | some child =>
      dsimp only
      by_cases hq : q = c
      · subst hq
        rw [assocLookup_assocSet_self, hc]
        rfl
      · rw [assocLookup_assocSet_ne _ _ _ _ hq]

/-- `appendChild` leaves other nodes' children lists alone. -/
theorem childrenOf_appendChild_ne (s : CMState) (p c q : String) (h : q ≠ p) :
    childrenOf (appendChild s p c) q = childrenOf s q := by
  unfold appendChild childrenOf
  cases hp : assocLookup s.nodes p with
  | none => rfl
  | some parent =>
      dsimp only
      split
      · rfl
      · rw [assocLookup_assocSet_ne _ _ _ _ h]

/-- Attaching never removes anyone from a children list. -/
theorem attach_to_parent_children_mono (s : CMState) (c p q x : String)
    (hx : x ∈ childrenOf s q) : x ∈ childrenOf (attach_to_parent s c p) q := by
  unfold attach_to_parent
  cases hp : assocLookup s.nodes p with
  | none => exact hx
  | some parent =>
      dsimp only
      rw [← childrenOf_setChildParentId s c parent.id q] at hx
      generalize (setChildParentId s c parent.id) = s1 at hx ⊢
      unfold appendChild
      cases hp1 : assocLookup s1.nodes p with
      | none => exact hx
      | some parent' =>
          dsimp only
          split
          · exact hx
          · unfold childrenOf at hx ⊢
            by_cases hq : q = p
            · subst hq
              rw [assocLookup_assocSet_self]
              rw [hp1] at hx
              exact List.mem_append_left _ hx
            · rw [assocLookup_assocSet_ne _ _ _ _ hq]
              exact hx

/-- When nobody waits for the new node, the adoption step is a no-op. -/
theorem adopt_waiting_of_none (s : CMState) (fid : String) (iter : List String)
    (h : assocLookup s.orphaned fid = none) : adopt_waiting s fid iter = s := by
  unfold adopt_waiting
  rw [h]

theorem assocLookup_append_self {α : Type} (l : List (String × α)) (k : String)
    (v : α) (h : assocLookup l k = none) :
    assocLookup (l ++ [(k, v)]) k = some v := by
  induction l with
  | nil => simp [assocLookup]
  | cons kv t ih =>
      simp only [assocLookup] at h ⊢
      by_cases hk : kv.1 = k
      · rw [if_pos hk] at h
        exact absurd h (by simp)
      · rw [if_neg hk] at h ⊢
        exact ih h

theorem assocLookup_append_ne {α : Type} (l : List (String × α)) (k k' : String)
    (v : α) (h : k' ≠ k) :
    assocLookup (l ++ [(k, v)]) k' = assocLookup l k' := by
  induction l with
  | nil => simp [assocLookup, Ne.symm h]
  | cons kv t ih =>
      simp only [List.cons_append, assocLookup]
      by_cases hk : kv.1 = k'
      · rw [if_pos hk, if_pos hk]
      · rw [if_neg hk, if_neg hk]
        exact ih

/-- Effect of `_handle_orphaned_node` on the orphan map: the bucket for the
expected parent is extended by the node, other buckets are untouched, and
the rest of the state is unchanged. -/
theorem handle_orphaned_spec (s : CMState) (nid ep : String) :
    assocLookup (handle_orphaned s nid ep).orphaned ep = some (bucketOf s ep ++ [nid]) ∧
    (∀ q, q ≠ ep →
      assocLookup (handle_orphaned s nid ep).orphaned q = assocLookup s.orphaned q) ∧
    (handle_orphaned s nid ep).nodes = s.nodes ∧
    (handle_orphaned s nid ep).root = s.root ∧
    (handle_orphaned s nid ep).secretValues = s.secretValues ∧
    (handle_orphaned s nid ep).checkpointsEnabled = s.checkpointsEnabled ∧
    (handle_orphaned s nid ep).activeCheckpoint = s.activeCheckpoint ∧
    (handle_orphaned s nid ep).pendingUpdate = s.pendingUpdate ∧
    (handle_orphaned s nid ep).flushesStarted = s.flushesStarted := by
  unfold handle_orphaned bucketOf
  cases hb : assocLookup s.orphaned ep with
  | none =>
      dsimp only
      refine ⟨?_, ?_, rfl, rfl, rfl, rfl, rfl, rfl, rfl⟩
      · rw [assocLookup_append_self _ _ _ hb]
        rfl
      · intro q hq
        rw [assocLookup_append_ne _ _ _ _ hq]
  | some bucket =>
      dsimp only
      refine ⟨?_, ?_, rfl, rfl, rfl, rfl, rfl, rfl, rfl⟩
      · rw [assocLookup_assocSet_self]
        rfl
      · intro q hq
        rw [assocLookup_assocSet_ne _ _ _ _ hq]

/-- A permutation of a two-element list is one of its two arrangements. -/
theorem perm_pair {α : Type} {l : List α} {a b : α}
    (h : l.Perm [a, b]) : l = [a, b] ∨ l = [b, a] := by
  cases l with
  | nil => simpa using h.length_eq
  | cons x t =>
      cases t with
      | nil => simpa using h.length_eq
      | cons y t2 =>
          cases t2 with
          | cons z t3 => simpa using h.length_eq
          | nil =>
              have hx : x ∈ [a, b] := h.subset (List.mem_cons_self x [y])
              rcases List.mem_cons.mp hx with hxa | hxb
              · subst hxa
                left
                have h2 : [y].Perm [b] := h.cons_inv
                rw [List.perm_singleton.mp h2]
              · have hxb' : x = b := by simpa using hxb
                right
                have hswap : List.Perm [a, b] [b, a] := List.Perm.swap b a []
                have h1 := h.trans hswap
                rw [hxb'] at h1
                have h2 : [y].Perm [a] := h1.cons_inv
                rw [hxb', List.perm_singleton.mp h2]

/-- Folding attachments over a list of orphans never changes anything but
node entries. -/
theorem foldl_attach_parts (fid : String) (iter : List String) (s : CMState) :
    (iter.foldl (fun acc oid => attach_to_parent acc oid fid) s).orphaned = s.orphaned ∧
    (iter.foldl (fun acc oid => attach_to_parent acc oid fid) s).root = s.root ∧
    (iter.foldl (fun acc oid => attach_to_parent acc oid fid) s).secretValues = s.secretValues ∧
    (iter.foldl (fun acc oid => attach_to_parent acc oid fid) s).checkpointsEnabled = s.checkpointsEnabled ∧
    (iter.foldl (fun acc oid => attach_to_parent acc oid fid) s).activeCheckpoint = s.activeCheckpoint ∧
    (iter.foldl (fun acc oid => attach_to_parent acc oid fid) s).pendingUpdate = s.pendingUpdate ∧
    (iter.foldl (fun acc oid => attach_to_parent acc oid fid) s).flushesStarted = s.flushesStarted := by
  induction iter generalizing s with
  | nil => exact ⟨rfl, rfl, rfl, rfl, rfl, rfl, rfl⟩
  | cons oid rest ih =>
      simp only [List.foldl_cons]
      have ha := attach_to_parent_parts s oid fid
      have hr := ih (attach_to_parent s oid fid)
      exact ⟨hr.1.trans ha.1, hr.2.1.trans ha.2.1,
        hr.2.2.1.trans ha.2.2.1, hr.2.2.2.1.trans ha.2.2.2.2.1,
        hr.2.2.2.2.1.trans ha.2.2.2.2.2.1, hr.2.2.2.2.2.1.trans ha.2.2.2.2.2.2.1,
        hr.2.2.2.2.2.2.trans ha.2.2.2.2.2.2.2⟩

/-- Folding attachments never removes anyone from a children list. -/
theorem foldl_attach_children_mono (fid : String) (iter : List String)
    (s : CMState) (q x : String) (hx : x ∈ childrenOf s q) :
    x ∈ childrenOf (iter.foldl (fun acc oid => attach_to_parent acc oid fid) s) q := by
  induction iter generalizing s with
  | nil => exact hx
  | cons oid rest ih =>
      simp only [List.foldl_cons]
      exact ih _ (attach_to_parent_children_mono s oid fid q x hx)

/-! ### Demo states

States assembled the way the repository's own tests do (manager constructed
with checkpoints disabled; secrets placed directly into `_secret_values`,
mirroring `test_secret_scrubbing`). -/

/-- A manager state with the given tree data, empty chain, checkpoints
disabled and idle persistence — the shape of a freshly used test manager. -/
def mgrState (nodes : List (String × ENode))
    (orphaned : List (String × List String))
    (secrets : List (String × List String)) (root : Option String) : CMState :=
  { nodes := nodes, orphaned := orphaned, secretValues := secrets, chain := [],
    root := root, checkpointsEnabled := false, activeCheckpoint := false,
    pendingUpdate := false, flushesStarted := 0 }

/-- Root node `p` with a secret-bearing prop and an output embedding that
secret. -/
def nodeP : ENode :=
  { id := "p", component_name := "Parent", start_time := 0
  , props := .vdict 1 [("k", .vstr "secretvalue1234")], parent_id := none
  , children := ["c"], output := .vstr "out secretvalue1234"
  , end_time := some 5, metadata := [], component_opts := none }

/-- Child node `c` of `p` whose output also embeds the parent's secret. -/
def nodeC : ENode :=
  { id := "c", component_name := "Child", start_time := 1
  , props := .vdict 2 [], parent_id := some "p", children := []
  , output := .vstr "child has secretvalue1234"
  , end_time := some 4, metadata := [], component_opts := none }

/-- The two-node tree with `"secretvalue1234"` registered on the root `p`
only, at flush time (empty current-node chain). -/
def stC1 : CMState :=
  mgrState [("p", nodeP), ("c", nodeC)] [] [("p", ["secretvalue1234"])] (some "p")

/-! ### Claim theorems -/

/--
C2.  `_is_tree_valid` returns true if and only if a root node exists, the
orphan set is empty, and, for every node reachable from the root, each
child's recorded parent id equals that node's id
(`specStructurallyValid`, written from the specification's words).
-/
theorem c2_is_tree_valid_iff_spec (s : CMState) :
    is_tree_valid s = true ↔ specStructurallyValid s := by
  unfold is_tree_valid specStructurallyValid
  cases hr : s.root with
  | none => simp
  | some rid =>
      dsimp only
      by_cases ho : s.orphaned = []
      · have hempty : s.orphaned.isEmpty = true := by simp [ho]
        rw [if_pos hempty]
        rw [verify_node_iff]
        simp [ho]
      · have hempty : s.orphaned.isEmpty = false := by
          simpa [List.isEmpty_iff] using ho
        rw [if_neg (by simp [hempty])]
        simp [ho]

/--
C1, counterexample.  In `stC1` the secret `"secretvalue1234"` is registered
on the root `p`, and `c` is `p`'s child; yet `_mask_execution_tree` (which
runs at flush time with an empty current-node chain) leaves the secret
verbatim in the persisted output of the descendant `c` — only `p`'s own
fields are redacted.  This falsifies the claim's "a secret registered on a
node is redacted from the persisted output fields of its descendants".
-/
theorem c1_counterexample :
    assocLookup stC1.secretValues "p" = some ["secretvalue1234"] ∧
    childrenOf stC1 "p" = ["c"] ∧
    (mask_execution_tree stC1 3 "p").map (fun m => m.output)
      = some (.vstr "out [secret]") ∧
    (mask_execution_tree stC1 3 "p").map (fun m => m.children.map fun mc => mc.output)
      = some [.vstr "child has secretvalue1234"] ∧
    pyContains "child has secretvalue1234" "secretvalue1234" = true := by
  exact ⟨rfl, rfl, rfl, rfl, rfl⟩

/--
C1, amended.  `scrub(data, activeNodeId)` redacts with the effective
secrets, i.e. the union of the secret sets of `activeNodeId` and of every
node on the chain active at the time of scrubbing: a string equal to the
single effective secret becomes exactly the redaction token (first
conjunct).  But when the execution tree is masked for persistence the
active chain is empty, so each node is scrubbed only against its own
registered secrets (second conjunct: the rest of the registry is
irrelevant), and a secret registered on a node is NOT redacted from the
persisted output fields of its descendants (last conjuncts: the root's own
output is redacted, its child's is not).
-/
theorem c1_amended :
    (∀ (st : CMState) (nid sec : String), nid ≠ "" →
        MIN_SECRET_LENGTH ≤ sec.length →
        effectiveSecretsFor st (st.chain ++ [nid]) = [sec] →
        scrub_secrets st (.vstr sec) (some nid) = .vstr "[secret]") ∧
    (∀ (st : CMState) (data : PyVal) (nid : String), st.chain = [] → nid ≠ "" →
        scrub_secrets st data (some nid) =
          scrub_data ((assocLookup st.secretValues nid).getD []) [] data) ∧
    (mask_execution_tree stC1 3 "p").map (fun m => m.output)
      = some (.vstr "out [secret]") ∧
    (mask_execution_tree stC1 3 "p").map (fun m => m.children.map fun mc => mc.output)
      = some [.vstr "child has secretvalue1234"] := by
  refine ⟨?_, ?_, rfl, rfl⟩
  · intro st nid sec hnid hlen heff
    have ht : truthyOptStr (some nid) = true := by
      simpa [truthyOptStr] using hnid
    unfold scrub_secrets
    rw [ht]
    simp only [if_true, Option.toList]
    rw [heff]
    show PyVal.vstr (scrubString [sec] sec) = .vstr "[secret]"
    rw [scrubString_single_exact sec hlen]
  · intro st data nid hchain hnid
    have ht : truthyOptStr (some nid) = true := by
      simpa [truthyOptStr] using hnid
    unfold scrub_secrets
    rw [ht]
    simp only [if_true, Option.toList, hchain, List.nil_append]
    have heff : effectiveSecretsFor st [nid] =
        (assocLookup st.secretValues nid).getD [] := by
      unfold effectiveSecretsFor
      simp [listUnion, List.filter_eq_self]
    rw [heff]

/-- Witness for C1 amended: the general conjuncts applied in `stC1` at node
`p` and its secret. -/
theorem c1_amended_witness :
    ("p" ≠ "" ∧ MIN_SECRET_LENGTH ≤ "secretvalue1234".length ∧
      effectiveSecretsFor stC1 (stC1.chain ++ ["p"]) = ["secretvalue1234"]) ∧
    scrub_secrets stC1 (.vstr "secretvalue1234") (some "p") = .vstr "[secret]" ∧
    scrub_secrets stC1 (.vstr "child has secretvalue1234") (some "c") =
      scrub_data ((assocLookup stC1.secretValues "c").getD [])
        [] (.vstr "child has secretvalue1234") :=
  ⟨⟨by decide, by decide, rfl⟩,
    c1_amended.1 stC1 "p" "secretvalue1234" (by decide) (by decide) rfl,
    c1_amended.2.1 stC1 (.vstr "child has secretvalue1234") "c" rfl (by decide)⟩

/-- Orphan `a`, created with the not-yet-existing parent `"p"`. -/
def nodeA : ENode :=
  { id := "a", component_name := "A", start_time := 1
  , props := .vdict 3 [], parent_id := some "p", children := []
  , output := .vnone, end_time := none, metadata := [], component_opts := none }

/-- Orphan `b`, created with the not-yet-existing parent `"p"` after `a`. -/
def nodeB : ENode :=
  { id := "b", component_name := "B", start_time := 2
  , props := .vdict 4 [], parent_id := some "p", children := []
  , output := .vnone, end_time := none, metadata := [], component_opts := none }

/-- Two orphans waiting for parent `"p"`, bucket in insertion order
`["a", "b"]`; no root yet. -/
def stC3 : CMState :=
  mgrState [("a", nodeA), ("b", nodeB)] [("p", ["a", "b"])] [] none

/-- The payload of the later `add_node` call that creates the awaited
parent. -/
def pnP : NodeSpec :=
  { component_name := some "P", props := none, component_opts := none }

/--
C3, counterexample.  The orphan bucket for `"p"` holds `a` then `b` in
insertion order, and `["b", "a"]` is a possible iteration order of that
Python set (set iteration order is unspecified and does not preserve
insertion); creating the awaited parent with that order appends the orphans
as children `["b", "a"]`, not in "the orphans' original insertion order"
`["a", "b"]` as the claim requires of every execution.
-/
theorem c3_counterexample :
    List.Perm ["b", "a"] (bucketOf stC3 "p") ∧
    childrenOf (add_node stC3 pnP none "p" 3 ["b", "a"]).1 "p" = ["b", "a"] ∧
    (["b", "a"] : List String) ≠ ["a", "b"] := by
  exact ⟨by decide, rfl, by decide⟩

/--
C3, amended.  (i) A node created under a parent id that names no existing
node is immediately retrievable by its own id and is appended to the orphan
bucket keyed by that parent id (first conjunct, general).  (ii) When a node
whose id equals that parent id is later created, every waiting orphan is
removed from the bucket — the bucket is deleted — and appended to the new
parent's child list in the bucket's set-iteration order, which is some
permutation of the insertion order but need not equal it (second conjunct:
for the two-orphan bucket, the children are exactly the iteration order the
runtime presents, both orphans got the new parent recorded, and the bucket
is gone).
-/
theorem c3_amended :
    (∀ (s : CMState) (pn : NodeSpec) (pid fid : String) (t : Nat)
        (iter : List String),
        pid ≠ "" → assocLookup s.nodes pid = none → pid ≠ fid →
        assocLookup s.orphaned fid = none →
        assocLookup (add_node s pn (some pid) fid t iter).1.nodes fid
            = some (mkNode pn (some pid) fid t) ∧
        assocLookup (add_node s pn (some pid) fid t iter).1.orphaned pid
            = some (bucketOf s pid ++ [fid])) ∧
    (∀ iter : List String, iter.Perm (bucketOf stC3 "p") →
        childrenOf (add_node stC3 pnP none "p" 3 iter).1 "p" = iter ∧
        assocLookup (add_node stC3 pnP none "p" 3 iter).1.orphaned "p" = none ∧
        ((assocLookup (add_node stC3 pnP none "p" 3 iter).1.nodes "a").map
            ENode.parent_id) = some (some "p") ∧
        ((assocLookup (add_node stC3 pnP none "p" 3 iter).1.nodes "b").map
            ENode.parent_id) = some (some "p")) := by
  constructor
  · intro s pn pid fid t iter hpid hnopar hne hnofid
    unfold add_node
    have ht : truthyOptStr (some pid) = true := by simpa [truthyOptStr] using hpid
    rw [ht]
    simp only [if_true]
    have hl1 : assocLookup (assocSet s.nodes fid (mkNode pn (some pid) fid t)) pid
        = none := by
      rw [assocLookup_assocSet_ne _ _ _ _ hne]
      exact hnopar
    rw [hl1]
    dsimp only
    have hspec := handle_orphaned_spec
      { s with nodes := assocSet s.nodes fid (mkNode pn (some pid) fid t) } fid pid
    have hb : assocLookup (handle_orphaned
        { s with nodes := assocSet s.nodes fid (mkNode pn (some pid) fid t) }
        fid pid).orphaned fid = none := by
      rw [hspec.2.1 fid (Ne.symm hne)]
      exact hnofid
    rw [adopt_waiting_of_none _ _ _ hb]
    simp only [Bool.not_true, Bool.false_and, Bool.false_eq_true, if_false]
    constructor
    · rw [hspec.2.2.1]
      exact assocLookup_assocSet_self _ _ _
    · rw [hspec.1]
      rfl
  · intro iter hperm
    rcases perm_pair hperm with h | h <;> subst h <;> exact ⟨rfl, rfl, rfl, rfl⟩

/-- Witness for C3 amended: part (i) at a concrete orphan creation in
`stC3`, and part (ii) at the insertion-order iteration. -/
theorem c3_amended_witness :
    (("q" ≠ "" ∧ assocLookup stC3.nodes "q" = none ∧ "q" ≠ "d" ∧
        assocLookup stC3.orphaned "d" = none) ∧
      assocLookup (add_node stC3 pnP (some "q") "d" 9 []).1.nodes "d"
          = some (mkNode pnP (some "q") "d" 9) ∧
      assocLookup (add_node stC3 pnP (some "q") "d" 9 []).1.orphaned "q"
          = some (bucketOf stC3 "q" ++ ["d"])) ∧
    (List.Perm ["a", "b"] (bucketOf stC3 "p") ∧
      childrenOf (add_node stC3 pnP none "p" 3 ["a", "b"]).1 "p" = ["a", "b"]) :=
  ⟨⟨⟨by decide, rfl, by decide, rfl⟩,
    c3_amended.1 stC3 pnP "q" "d" 9 [] (by decide) rfl (by decide) rfl⟩,
   ⟨by decide, (c3_amended.2 ["a", "b"] (by decide)).1⟩⟩

/-- The adoption step changes only node entries and the orphan map. -/
theorem adopt_waiting_parts (s : CMState) (fid : String) (iter : List String) :
    (adopt_waiting s fid iter).root = s.root ∧
    (adopt_waiting s fid iter).secretValues = s.secretValues ∧
    (adopt_waiting s fid iter).checkpointsEnabled = s.checkpointsEnabled ∧
    (adopt_waiting s fid iter).activeCheckpoint = s.activeCheckpoint ∧
    (adopt_waiting s fid iter).pendingUpdate = s.pendingUpdate ∧
    (adopt_waiting s fid iter).flushesStarted = s.flushesStarted := by
  unfold adopt_waiting
  cases assocLookup s.orphaned fid with
  | none => exact ⟨rfl, rfl, rfl, rfl, rfl, rfl⟩
  | some bucket =>
      dsimp only
      split
      · exact ⟨rfl, rfl, rfl, rfl, rfl, rfl⟩
      · have h := foldl_attach_parts fid iter s
        exact ⟨h.2.1, h.2.2.1, h.2.2.2.1, h.2.2.2.2.1, h.2.2.2.2.2.1,
          h.2.2.2.2.2.2⟩

/-- The adoption step never removes anyone from a children list. -/
theorem adopt_waiting_children_mono (s : CMState) (fid : String)
    (iter : List String) (q x : String) (hx : x ∈ childrenOf s q) :
    x ∈ childrenOf (adopt_waiting s fid iter) q := by
  unfold adopt_waiting
  cases assocLookup s.orphaned fid with
  | none => exact hx
  | some bucket =>
      dsimp only
      split
      · exact hx
      · exact foldl_attach_children_mono fid iter s q x hx

/-- The final trigger of `add_node` (a conditional `_update_checkpoint`)
never changes the root. -/
theorem trigger_root (c : Bool) (s3 : CMState) :
    (if c then update_checkpoint s3 else s3).root = s3.root := by
  split
  · exact (update_checkpoint_parts s3).2.2.2.2
  · rfl

/-- Nor the children lists. -/
theorem trigger_children (c : Bool) (s3 : CMState) (q : String) :
    childrenOf (if c then update_checkpoint s3 else s3) q = childrenOf s3 q := by
  split
  · unfold childrenOf
    rw [(update_checkpoint_parts s3).1]
  · rfl

/--
C5.  The first node created with no parent becomes the root (first
conjunct).  A later parentless creation while a root exists leaves the root
unchanged and does not make the new node root when the current root's
recorded parent id differs from the new node's id (second conjunct) —
but when the current root's recorded parent id equals the new node's id,
the old root is attached as a child of the new node and the new node
becomes root (third conjunct).
-/
theorem c5_root_rule :
    (∀ (s : CMState) (pn : NodeSpec) (fid : String) (t : Nat) (iter : List String),
        s.root = none →
        (add_node s pn none fid t iter).1.root = some fid) ∧
    (∀ (s : CMState) (pn : NodeSpec) (fid : String) (t : Nat) (iter : List String)
        (r : String) (rnode : ENode),
        s.root = some r → assocLookup s.nodes r = some rnode →
        rnode.parent_id ≠ some fid → assocLookup s.nodes fid = none →
        (add_node s pn none fid t iter).1.root = some r ∧ r ≠ fid) ∧
    (∀ (s : CMState) (pn : NodeSpec) (fid : String) (t : Nat) (iter : List String)
        (r : String) (rnode : ENode),
        s.root = some r → assocLookup s.nodes r = some rnode →
        rnode.parent_id = some fid → assocLookup s.nodes fid = none →
        (add_node s pn none fid t iter).1.root = some fid ∧
        r ∈ childrenOf (add_node s pn none fid t iter).1 fid) := by
  refine ⟨?_, ?_, ?_⟩
  · intro s pn fid t iter hroot
    unfold add_node
    simp only [truthyOptStr, Bool.false_eq_true, if_false]
    rw [hroot]
    dsimp only
    rw [trigger_root]
    exact (adopt_waiting_parts _ fid iter).1
  · intro s pn fid t iter r rnode hroot hr hpar hfid
    have hrfid : r ≠ fid := by
      intro h
      rw [h, hfid] at hr
      exact Option.noConfusion hr
    unfold add_node
    simp only [truthyOptStr, Bool.false_eq_true, if_false]
    rw [hroot]
    dsimp only
    rw [assocLookup_assocSet_ne _ _ _ _ hrfid, hr]
    dsimp only
    have hbeq : (rnode.parent_id == some fid) = false := by
      simpa using hpar
    rw [hbeq]
    simp only [Bool.false_eq_true, if_false]
    rw [trigger_root]
    exact ⟨(adopt_waiting_parts _ fid iter).1, hrfid⟩
  · intro s pn fid t iter r rnode hroot hr hpar hfid
    have hrfid : r ≠ fid := by
      intro h
      rw [h, hfid] at hr
      exact Option.noConfusion hr
    unfold add_node
    simp only [truthyOptStr, Bool.false_eq_true, if_false]
    rw [hroot]
    dsimp only
    rw [assocLookup_assocSet_ne _ _ _ _ hrfid, hr]
    dsimp only
    have hbeq : (rnode.parent_id == some fid) = true := by
      simpa using hpar
    rw [hbeq]
    simp only [if_true]
    constructor
    · rw [trigger_root]
      exact (adopt_waiting_parts _ fid iter).1
    · rw [trigger_children]
      apply adopt_waiting_children_mono
      unfold attach_to_parent
      rw [assocLookup_assocSet_self]
      dsimp only
      unfold appendChild setChildParentId
      rw [assocLookup_assocSet_ne _ _ _ _ hrfid, hr]
      dsimp only
      rw [assocLookup_assocSet_ne _ _ _ _ (Ne.symm hrfid),
        assocLookup_assocSet_self]
      dsimp only [mkNode]
      simp only [List.any_nil, Bool.false_eq_true, if_false]
      unfold childrenOf
      rw [assocLookup_assocSet_self]
      simp

/-- Witness for C5: a first parentless creation on the empty manager
becomes root, instantiating the first conjunct. -/
theorem c5_root_rule_witness :
    (initialState false).root = none ∧
    (add_node (initialState false) pnP none "r0" 0 []).1.root = some "r0" :=
  ⟨rfl, c5_root_rule.1 (initialState false) pnP "r0" 0 [] rfl⟩

/-- Overlapping secrets `"abcd1234xyz"` (11 chars) and `"1234xyz"` (7
chars), both registered on node `n` and both effective when scrubbing as
`n`. -/
def stC6 : CMState :=
  mgrState [] [] [("n", ["abcd1234xyz", "1234xyz"])] none

/--
C6, counterexample.  With both `"abcd1234xyz"` and `"1234xyz"` registered
and effective, scrubbing the string `"1234xyz"` leaves it unchanged —
`_scrub_string` drops every effective secret shorter than
`MIN_SECRET_LENGTH = 8`, and `"1234xyz"` has only 7 characters — so this
occurrence of a registered secret is not replaced by the redaction token,
contrary to the claim (which asserts both are replaced and even calls both
"≥ 8 chars").
-/
theorem c6_counterexample :
    assocLookup stC6.secretValues "n" = some ["abcd1234xyz", "1234xyz"] ∧
    ("1234xyz" : String).length < MIN_SECRET_LENGTH ∧
    scrub_secrets stC6 (.vstr "1234xyz") (some "n") = .vstr "1234xyz" ∧
    PyVal.vstr "1234xyz" ≠ PyVal.vstr "[secret]" := by
  refine ⟨rfl, by decide, rfl, by simp⟩

/--
C6, amended.  With `"abcd1234xyz"` and `"1234xyz"` both registered and
effective, only the former (length ≥ 8) is substituted: every scrubbed
string is exactly the input with all occurrences of `"abcd1234xyz"`
replaced by the redaction token (first conjunct, all strings), so a full
occurrence of the longer secret is replaced entirely and leaves no partial
`"1234xyz"`-shaped remainder (second conjunct), while a standalone
occurrence of the 7-character `"1234xyz"` survives (third conjunct).
-/
theorem c6_amended :
    (∀ v : String, scrub_secrets stC6 (.vstr v) (some "n")
        = .vstr (pyReplaceAll v "abcd1234xyz" "[secret]")) ∧
    scrub_secrets stC6 (.vstr "zz abcd1234xyz zz") (some "n")
      = .vstr "zz [secret] zz" ∧
    scrub_secrets stC6 (.vstr "zz abcd1234xyz zz 1234xyz") (some "n")
      = .vstr "zz [secret] zz 1234xyz" := by
  refine ⟨?_, rfl, rfl⟩
  intro v
  have h1 : scrub_secrets stC6 (.vstr v) (some "n") =
      .vstr (if pyContains v "abcd1234xyz"
             then pyReplaceAll v "abcd1234xyz" "[secret]" else v) := rfl
  rw [h1]
  by_cases h : pyContains v "abcd1234xyz"
  · rw [if_pos h]
  · rw [if_neg h]
    have hfalse : pyContains v "abcd1234xyz" = false := by
      simpa using h
    rw [pyReplaceAll_of_not_contains _ _ _ hfalse]

/--
C7.  Completing an id that names no stored node returns without raising
and leaves the whole manager state — nodes, orphan set, root, secret
registry, chain and persistence flags — exactly unchanged (it only prints
a diagnostic line, which has no state).
-/
theorem c7_unknown_complete_noop (s : CMState) (id : String) (output : PyVal)
    (t : Nat) (h : assocLookup s.nodes id = none) :
    complete_node s id output t = s := by
  unfold complete_node
  rw [h]

/-- Witness for C7: completing the unknown id `"ghost"` on the two-node
demo state is the identity. -/
theorem c7_unknown_complete_noop_witness :
    assocLookup stC1.nodes "ghost" = none ∧
    complete_node stC1 "ghost" (.vstr "anything") 7 = stC1 :=
  ⟨rfl, c7_unknown_complete_noop stC1 "ghost" (.vstr "anything") 7 rfl⟩

/-- A manager with an empty secret registry and empty chain. -/
def stEmptyReg : CMState := mgrState [] [] [] none

/--
C10.  `scrub` turns every integer, float and boolean into the *string*
rendering of the value even with no secrets registered — in Python
`isinstance(data, (str, int, float))` also captures `bool`, a subclass of
`int`, so `True` scrubs to `"True"` — while `None` and strings keep their
type, including values nested inside lists and dicts, so numeric and
boolean leaves of the redacted snapshot are strings.
-/
theorem c10_scrub_stringifies :
    (∀ n : Int, scrub_secrets stEmptyReg (.vint n) none = .vstr (toString n)) ∧
    (∀ b : Bool, scrub_secrets stEmptyReg (.vbool b) none = .vstr (pyBoolStr b)) ∧
    (∀ r : String, scrub_secrets stEmptyReg (.vfloat r) none = .vstr r) ∧
    scrub_secrets stEmptyReg .vnone none = .vnone ∧
    (∀ v : String, scrub_secrets stEmptyReg (.vstr v) none = .vstr v) ∧
    scrub_secrets stEmptyReg (.vint 42) none = .vstr "42" ∧
    scrub_secrets stEmptyReg (.vbool true) none = .vstr "True" ∧
    scrub_secrets stEmptyReg
        (.vdict 1 [("a", .vint 42), ("b", .vlist 2 [.vbool true, .vfloat "3.5"])])
        none
      = .vdict 1 [("a", .vstr "42"), ("b", .vlist 2 [.vstr "True", .vstr "3.5"])] :=
  ⟨fun _ => rfl, fun _ => rfl, fun _ => rfl, rfl, fun _ => rfl, rfl, rfl, rfl⟩

/-- A plain stored node `n` for the metadata/patch experiments. -/
def nodeN : ENode :=
  { id := "n", component_name := "N", start_time := 0
  , props := .vdict 1 [], parent_id := none, children := []
  , output := .vnone, end_time := none, metadata := [], component_opts := none }

/-- A one-node manager holding `n` as root. -/
def stC8 : CMState := mgrState [("n", nodeN)] [] [] (some "n")

/--
C8, counterexample.  `add_metadata` merges the caller's mapping with
`dict.update` and stores the values *as given*: attaching a callable under
`"cb"` stores the callable itself, while the cloning rule renders a
callable as the `"[function]"` marker — so metadata merged in via the
metadata-attaching call is not "stored only after applying the cloning
rule".
-/
theorem c8_counterexample :
    ((assocLookup (add_metadata stC8 "n" [("cb", .vfunc false)]).nodes "n").map
        ENode.metadata) = some [("cb", .vfunc false)] ∧
    cloneValue [] (.vfunc false) = .vstr "[function]" ∧
    PyVal.vfunc false ≠ PyVal.vstr "[function]" := by
  refine ⟨rfl, rfl, by simp⟩

/--
C8, amended.  Values captured by create, complete and field-patch are
stored only after `_clone_value` — a repeated reference on the descent path
becomes the circular-reference marker, callables become opaque markers
(native vs ordinary), an unserializable value degrades to the
unserializable marker for that value alone (conjuncts on `add_node`,
`complete_node`, `update_node` and `cloneValue`) — but metadata merged in
via `add_metadata` is stored as given, without the cloning pass (last
general conjunct).
-/
theorem c8_amended :
    ((assocLookup (add_node stC8
        { component_name := some "X"
        , props := some (.vlist 5 [.vlist 5 [], .vfunc false, .vraising 9])
        , component_opts := none } none "x" 7 []).1.nodes "x").map ENode.props)
      = some (.vlist 5 [.vstr "[circular reference]", .vstr "[function]",
          .vstr "[unserializable]"]) ∧
    (∀ (s : CMState) (id : String) (out : PyVal) (t : Nat) (node : ENode),
        assocLookup s.nodes id = some node →
        assocLookup (complete_node s id out t).nodes id
          = some { node with end_time := some t, output := cloneValue [] out }) ∧
    ((assocLookup (update_node stC8 "n" [("output", .vfunc false)]).nodes "n").map
        ENode.output) = some (.vstr "[function]") ∧
    cloneValue [] (.vfunc true) = .vstr "[native function]" ∧
    cloneValue [] (.vdict 4 [("self", .vdict 4 [])])
      = .vdict 4 [("self", .vstr "[circular reference]")] ∧
    cloneValue [] (.vraising 3) = .vstr "[unserializable]" ∧
    (∀ (s : CMState) (id : String) (md : List (String × PyVal)) (node : ENode),
        assocLookup s.nodes id = some node →
        assocLookup (add_metadata s id md).nodes id
          = some { node with metadata := pyDictUpdate node.metadata md }) := by
  refine ⟨rfl, ?_, rfl, rfl, rfl, rfl, ?_⟩
  · intro s id out t node h
    unfold complete_node
    rw [h]
    dsimp only
    rw [(update_checkpoint_parts _).1]
    exact assocLookup_assocSet_self _ _ _
  · intro s id md node h
    unfold add_metadata
    rw [h]
    dsimp only
    rw [(update_checkpoint_parts _).1]
    exact assocLookup_assocSet_self _ _ _

/-- Witness for C8 amended: the general conjuncts applied at node `n` of
the one-node demo manager. -/
theorem c8_amended_witness :
    (assocLookup stC8.nodes "n" = some nodeN) ∧
    assocLookup (complete_node stC8 "n" (.vfunc true) 9).nodes "n"
      = some { nodeN with end_time := some 9, output := cloneValue [] (.vfunc true) } ∧
    assocLookup (add_metadata stC8 "n" [("cb", .vfunc false)]).nodes "n"
      = some { nodeN with metadata := pyDictUpdate nodeN.metadata [("cb", .vfunc false)] } :=
  ⟨rfl, c8_amended.2.1 stC8 "n" (.vfunc true) 9 nodeN rfl,
    c8_amended.2.2.2.2.2.2 stC8 "n" [("cb", .vfunc false)] nodeN rfl⟩

/-- `_is_tree_valid` only reads the node store, the orphan map and the
root. -/
theorem is_tree_valid_congr (s s' : CMState) (hn : s.nodes = s'.nodes)
    (ho : s.orphaned = s'.orphaned) (hr : s.root = s'.root) :
    is_tree_valid s = is_tree_valid s' := by
  have hv : ∀ (fuel : Nat) (nid : String),
      verify_node s fuel nid = verify_node s' fuel nid := by
    intro fuel
    induction fuel with
    | zero => intro nid; rfl
    | succ n ih =>
        intro nid
        unfold verify_node
        simp only [hn, ih]
  unfold is_tree_valid
  rw [hr, ho, hn]
  cases s'.root with
  | none => rfl
  | some rid =>
      dsimp only
      rw [hv]

/-! ### C9: the flush state machine, driven through the public API. -/

/-- Fresh manager with credentials (checkpoints enabled). -/
def c9Step0 : CMState := initialState true

/-- Root creation: the tree is valid, so a first flush starts. -/
def c9Step1 : CMState := (add_node c9Step0 pnP none "r" 0 []).1

/-- A child arrives naming a parent that does not exist: the tree is now
invalid (an orphan waits), and no flush is triggered by child creation. -/
def c9Step2 : CMState :=
  (add_node c9Step1
    { component_name := some "O", props := none, component_opts := none }
    (some "missing") "o" 1 []).1

/-- Completing the orphan requests a flush while one is in flight and the
tree is invalid: only the pending flag is set. -/
def c9Step3 : CMState := complete_node c9Step2 "o" (.vstr "done") 2

/-- Completing the root instead (tree valid) while the first flush is in
flight: also just sets the pending flag. -/
def c9StepV : CMState := complete_node c9Step1 "r" (.vstr "ok") 3

/--
C9, counterexample.  After `c9Step3` a flush is in flight and the
pending-retry flag is set, but the tree is invalid (an orphan waits for
`"missing"`); when the in-flight flush finishes, the re-run of
`_update_checkpoint` hits the validity gate first: no new flush starts
(the started-flush counter is unchanged) and the pending flag is set
again rather than left cleared — contradicting "the flag is cleared and
exactly one new flush is started".
-/
theorem c9_counterexample :
    c9Step3.activeCheckpoint = true ∧
    c9Step3.pendingUpdate = true ∧
    is_tree_valid c9Step3 = false ∧
    (checkpoint_finished c9Step3).flushesStarted = c9Step3.flushesStarted ∧
    (checkpoint_finished c9Step3).pendingUpdate = true := by
  refine ⟨rfl, rfl, rfl, rfl, rfl⟩

/--
C9, amended.  While a flush is in flight (checkpoints enabled), every
further flush request only sets the pending-retry flag and starts nothing,
so at most one flush is in flight (first conjunct).  When the in-flight
flush finishes with the flag set, the flag is cleared and exactly one new
flush is started *provided the tree is then structurally valid* (second
conjunct); if the tree is invalid at that moment, the flag is set again
and no new flush starts until a later mutation finds the tree valid
(third conjunct).
-/
theorem c9_amended :
    (∀ s : CMState, s.checkpointsEnabled = true → s.activeCheckpoint = true →
        update_checkpoint s = { s with pendingUpdate := true }) ∧
    (∀ s : CMState, s.checkpointsEnabled = true → s.activeCheckpoint = true →
        s.pendingUpdate = true → is_tree_valid s = true →
        checkpoint_finished s =
          { s with pendingUpdate := false,
                   flushesStarted := s.flushesStarted + 1 }) ∧
    (∀ s : CMState, s.checkpointsEnabled = true → s.activeCheckpoint = true →
        s.pendingUpdate = true → is_tree_valid s = false →
        checkpoint_finished s = { s with activeCheckpoint := false }) := by
  refine ⟨?_, ?_, ?_⟩
  · intro s hen hact
    unfold update_checkpoint
    rw [hen]
    simp only [Bool.not_true, Bool.false_eq_true, if_false]
    by_cases hv : is_tree_valid s
    · simp [hv, hact]
    · simp [hv]
  · intro s hen hact hpend hvalid
    obtain ⟨nodes, orph, secr, chain, root, en, act, pend, fl⟩ := s
    simp only at hen hact hpend
    subst hen; subst hact; subst hpend
    unfold checkpoint_finished update_checkpoint
    simp only [if_true]
    have hv' : is_tree_valid
        { nodes := nodes, orphaned := orph, secretValues := secr, chain := chain,
          root := root, checkpointsEnabled := true, activeCheckpoint := false,
          pendingUpdate := false, flushesStarted := fl } = true :=
      (is_tree_valid_congr
        { nodes := nodes, orphaned := orph, secretValues := secr, chain := chain,
          root := root, checkpointsEnabled := true, activeCheckpoint := false,
          pendingUpdate := false, flushesStarted := fl }
        { nodes := nodes, orphaned := orph, secretValues := secr, chain := chain,
          root := root, checkpointsEnabled := true, activeCheckpoint := true,
          pendingUpdate := true, flushesStarted := fl } rfl rfl rfl).trans hvalid
    simp [hv']
  · intro s hen hact hpend hvalid
    obtain ⟨nodes, orph, secr, chain, root, en, act, pend, fl⟩ := s
    simp only at hen hact hpend
    subst hen; subst hact; subst hpend
    unfold checkpoint_finished update_checkpoint
    simp only [if_true]
    have hv' : is_tree_valid
        { nodes := nodes, orphaned := orph, secretValues := secr, chain := chain,
          root := root, checkpointsEnabled := true, activeCheckpoint := false,
          pendingUpdate := false, flushesStarted := fl } = false :=
      (is_tree_valid_congr
        { nodes := nodes, orphaned := orph, secretValues := secr, chain := chain,
          root := root, checkpointsEnabled := true, activeCheckpoint := false,
          pendingUpdate := false, flushesStarted := fl }
        { nodes := nodes, orphaned := orph, secretValues := secr, chain := chain,
          root := root, checkpointsEnabled := true, activeCheckpoint := true,
          pendingUpdate := true, flushesStarted := fl } rfl rfl rfl).trans hvalid
    simp [hv']

/-- Witness for C9 amended: the three conjuncts at states reached through
the public API (`c9Step2`: request during flight; `c9StepV`: finish with a
valid tree, one new flush; `c9Step3`: finish with an invalid tree, none). -/
theorem c9_amended_witness :
    update_checkpoint c9Step2 = { c9Step2 with pendingUpdate := true } ∧
    checkpoint_finished c9StepV =
      { c9StepV with pendingUpdate := false,
                     flushesStarted := c9StepV.flushesStarted + 1 } ∧
    checkpoint_finished c9Step3 = { c9Step3 with activeCheckpoint := false } :=
  ⟨c9_amended.1 c9Step2 rfl rfl,
   c9_amended.2.1 c9StepV rfl rfl rfl rfl,
   c9_amended.2.2 c9Step3 rfl rfl rfl rfl⟩

/-! ### C4: placement of created nodes (orphan bucket vs child list)

The claim quantifies over all sequences of create/complete/patch calls, so
the API is packaged as an operation type and executed by folding; a ghost
list records, per created node, whether it was created with a truthy parent
id.  Well-formedness of a sequence says only what the runtime guarantees:
generated UUIDs are fresh and non-empty, a caller-supplied parent id is
never the not-yet-generated fresh id, and the bucket iteration order passed
to `add_node` is a permutation of the bucket. -/

/-- Total number of occurrences of `x` across all orphan buckets. -/
def bucketCount (s : CMState) (x : String) : Nat :=
  (s.orphaned.map fun b => b.2.count x).sum

/-- Total number of occurrences of `x` across all children lists. -/
def childCount (s : CMState) (x : String) : Nat :=
  (s.nodes.map fun kv => kv.2.children.count x).sum

/-- One public mutation of the tracker. -/
inductive Op where
  | create (pn : NodeSpec) (parentId : Option String) (freshId : String)
      (t : Nat) (bucketIter : List String)
  | complete (id : String) (output : PyVal) (t : Nat)
  | addMeta (id : String) (md : List (String × PyVal))
  | patch (id : String) (updates : List (String × PyVal))

/-- Execute one operation. -/
def execOp (s : CMState) : Op → CMState
  | .create pn pid fid t iter => (add_node s pn pid fid t iter).1
  | .complete id out t => complete_node s id out t
  | .addMeta id md => add_metadata s id md
  | .patch id ups => update_node s id ups

/-- Execute a sequence of operations. -/
def runOps (s : CMState) : List Op → CMState
  | [] => s
  | op :: rest => runOps (execOp s op) rest

/-- Runtime guarantees for one operation: a create uses a fresh non-empty
UUID that the caller cannot have named as the parent, and iterates the
waiting bucket in some permutation of its contents. -/
def wfOp (s : CMState) : Op → Bool
  | .create _ pid fid _ iter =>
      fid ≠ "" && (assocLookup s.nodes fid).isNone && pid != some fid &&
        iter.Perm (bucketOf s fid)
  | _ => true

/-- Runtime guarantees along a whole sequence. -/
def wfOps (s : CMState) : List Op → Bool
  | [] => true
  | op :: rest => wfOp s op && wfOps (execOp s op) rest

/-- Ghost record of the creations in a sequence: created id paired with
whether the creation carried a truthy parent id. -/
def createsOf : List Op → List (String × Bool)
  | [] => []
  | .create _ pid fid _ _ :: rest => (fid, truthyOptStr pid) :: createsOf rest
  | .complete _ _ _ :: rest => createsOf rest
  | .addMeta _ _ :: rest => createsOf rest
  | .patch _ _ :: rest => createsOf rest

/-- Second parentless creation for the C4 scenario. -/
def pnB4 : NodeSpec :=
  { component_name := some "B4", props := none, component_opts := none }

/-- The two parentless creations of the C4 counterexample. -/
def c4Ops : List Op :=
  [Op.create pnP none "ra" 0 [], Op.create pnB4 none "rb" 1 []]

/-- The state they produce. -/
def c4s : CMState := runOps (initialState false) c4Ops

/--
C4, counterexample.  Two parentless creations: the first becomes root, the
second (`"rb"`) is created and retrievable but is *not* the root, sits in
no orphan bucket, and sits in no parent's child list — a created non-root
node in *neither* place, contradicting "never in both and never in
neither".
-/
theorem c4_counterexample :
    wfOps (initialState false) c4Ops = true ∧
    (assocLookup c4s.nodes "rb").isSome = true ∧
    c4s.root = some "ra" ∧
    bucketCount c4s "rb" = 0 ∧
    childCount c4s "rb" = 0 := by
  exact ⟨rfl, rfl, rfl, rfl, rfl⟩

/-! Counting lemmas for association-list updates. -/

theorem assocLookup_isSome_iff_mem {α : Type} (l : List (String × α)) (k : String) :
    (assocLookup l k).isSome = true ↔ k ∈ l.map Prod.fst := by
  induction l with
  | nil => simp [assocLookup]
  | cons kv t ih =>
      simp only [assocLookup, List.map_cons, List.mem_cons]
      by_cases hk : kv.1 = k
      · simp [hk]
      · simp only [if_neg hk, ih]
        constructor
        · exact Or.inr
        · rintro (h | h)
          · exact absurd h.symm hk
          · exact h

theorem assocLookup_eq_none_iff {α : Type} (l : List (String × α)) (k : String) :
    assocLookup l k = none ↔ k ∉ l.map Prod.fst := by
  rw [← assocLookup_isSome_iff_mem]
  cases assocLookup l k <;> simp

theorem keys_assocSet_fresh {α : Type} (l : List (String × α)) (k : String)
    (v : α) (h : assocLookup l k = none) :
    (assocSet l k v).map Prod.fst = l.map Prod.fst ++ [k] := by
  induction l with
  | nil => rfl
  | cons kv t ih =>
      simp only [assocLookup] at h
      by_cases hk : kv.1 = k
      · rw [if_pos hk] at h
        exact absurd h (by simp)
      · rw [if_neg hk] at h
        simp only [assocSet, if_neg hk, List.map_cons, ih h, List.cons_append]

theorem keys_assocSet_mem {α : Type} (l : List (String × α)) (k : String)
    (v : α) (h : k ∈ l.map Prod.fst) :
    (assocSet l k v).map Prod.fst = l.map Prod.fst := by
  induction l with
  | nil => simp at h
  | cons kv t ih =>
      by_cases hk : kv.1 = k
      · simp [assocSet, if_pos hk, hk]
      · simp only [List.map_cons, List.mem_cons] at h
        rcases h with h | h
        · exact absurd h.symm hk
        · simp [assocSet, if_neg hk, ih h]

theorem keys_assocErase_sublist {α : Type} (l : List (String × α)) (k : String) :
    ((assocErase l k).map Prod.fst).Sublist (l.map Prod.fst) := by
  induction l with
  | nil => simp [assocErase]
  | cons kv t ih =>
      by_cases hk : kv.1 = k
      · simp only [assocErase, if_pos hk, List.map_cons]
        exact (List.sublist_cons_self _ _)
      · simp only [assocErase, if_neg hk, List.map_cons]
        exact ih.cons₂ _

theorem mem_assocErase_sub {α : Type} (l : List (String × α)) (k : String)
    (b : String × α) (h : b ∈ assocErase l k) : b ∈ l := by
  induction l with
  | nil => simp [assocErase] at h
  | cons kv t ih =>
      by_cases hk : kv.1 = k
      · rw [assocErase, if_pos hk] at h
        exact List.mem_cons_of_mem _ h
      · rw [assocErase, if_neg hk] at h
        rcases List.mem_cons.mp h with h | h
        · exact h ▸ List.mem_cons_self _ _
        · exact List.mem_cons_of_mem _ (ih h)

theorem mem_assocSet_sub {α : Type} (l : List (String × α)) (k : String) (v : α)
    (b : String × α) (h : b ∈ assocSet l k v) : b ∈ l ∨ b = (k, v) := by
  induction l with
  | nil =>
      rw [assocSet] at h
      exact Or.inr (by simpa using h)
  | cons kv t ih =>
      by_cases hk : kv.1 = k
      · rw [assocSet, if_pos hk] at h
        rcases List.mem_cons.mp h with h | h
        · exact Or.inr h
        · exact Or.inl (List.mem_cons_of_mem _ h)
      · rw [assocSet, if_neg hk] at h
        rcases List.mem_cons.mp h with h | h
        · exact Or.inl (h ▸ List.mem_cons_self _ _)
        · rcases ih h with h | h
          · exact Or.inl (List.mem_cons_of_mem _ h)
          · exact Or.inr h

/-- Generic counting sum over an assoc list, after setting a fresh key. -/
theorem sum_map_assocSet_fresh {α : Type} (l : List (String × α)) (k : String)
    (v : α) (f : α → Nat) (h : assocLookup l k = none) :
    ((assocSet l k v).map fun kv => f kv.2).sum
      = (l.map fun kv => f kv.2).sum + f v := by
  induction l with
  | nil => simp [assocSet]
  | cons kv t ih =>
      simp only [assocLookup] at h
      by_cases hk : kv.1 = k
      · rw [if_pos hk] at h
        exact absurd h (by simp)
      · rw [if_neg hk] at h
        simp only [assocSet, if_neg hk, List.map_cons, List.sum_cons, ih h]
        omega

/-- Generic counting sum over an assoc list, after replacing an existing
key (stated without subtraction). -/
theorem sum_map_assocSet_update {α : Type} (l : List (String × α)) (k : String)
    (v w : α) (f : α → Nat) (h : assocLookup l k = some w) :
    ((assocSet l k v).map fun kv => f kv.2).sum + f w
      = (l.map fun kv => f kv.2).sum + f v := by
  induction l with
  | nil => simp [assocLookup] at h
  | cons kv t ih =>
      simp only [assocLookup] at h
      by_cases hk : kv.1 = k
      · rw [if_pos hk] at h
        have hw : kv.2 = w := by
          injection h
        simp only [assocSet, if_pos hk, List.map_cons, List.sum_cons, hw]
        omega
      · rw [if_neg hk] at h
        simp only [assocSet, if_neg hk, List.map_cons, List.sum_cons]
        have := ih h
        omega

/-- Generic counting sum over an assoc list, after erasing a key. -/
theorem sum_map_assocErase {α : Type} (l : List (String × α)) (k : String)
    (w : α) (f : α → Nat) (h : assocLookup l k = some w) :
    ((assocErase l k).map fun kv => f kv.2).sum + f w
      = (l.map fun kv => f kv.2).sum := by
  induction l with
  | nil => simp [assocLookup] at h
  | cons kv t ih =>
      simp only [assocLookup] at h
      by_cases hk : kv.1 = k
      · rw [if_pos hk] at h
        have hw : kv.2 = w := by injection h
        simp only [assocErase, if_pos hk, List.map_cons, List.sum_cons, hw]
        omega
      · rw [if_neg hk] at h
        simp only [assocErase, if_neg hk, List.map_cons, List.sum_cons]
        have := ih h
        omega

/-- Generic counting sum over an assoc list appended with a fresh entry. -/
theorem sum_map_append_one {α : Type} (l : List (String × α)) (k : String)
    (v : α) (f : α → Nat) :
    ((l ++ [(k, v)]).map fun kv => f kv.2).sum
      = (l.map fun kv => f kv.2).sum + f v := by
  simp

/-! Effect of the attachment helpers on keys, children lists and counts. -/

theorem keys_setChildParentId (s : CMState) (c : String) (pid : String) :
    (setChildParentId s c pid).nodes.map Prod.fst = s.nodes.map Prod.fst := by
  unfold setChildParentId
  cases hc : assocLookup s.nodes c with
  | none => rfl
  | some child =>
      exact keys_assocSet_mem _ _ _
        ((assocLookup_isSome_iff_mem _ _).mp (by rw [hc]; rfl))

theorem childCount_setChildParentId (s : CMState) (c : String) (pid : String)
    (x : String) : childCount (setChildParentId s c pid) x = childCount s x := by
  unfold setChildParentId childCount
  cases hc : assocLookup s.nodes c with
  | none => rfl
  | some child =>
      dsimp only
      have h := sum_map_assocSet_update s.nodes c
        { child with parent_id := some pid } child
        (fun nd => nd.children.count x) hc
      dsimp only at h
      omega

theorem appendChild_step (s : CMState) (p c : String) (parent : ENode)
    (hp : assocLookup s.nodes p = some parent)
    (hnotin : c ∉ parent.children) :
    childrenOf (appendChild s p c) p = parent.children ++ [c] ∧
    (∀ x, childCount (appendChild s p c) x
      = childCount s x + (if x = c then 1 else 0)) ∧
    (appendChild s p c).nodes.map Prod.fst = s.nodes.map Prod.fst := by
  unfold appendChild
  rw [hp]
  dsimp only
  have hany : (parent.children.any fun cid => cid = c) = false := by
    rw [List.any_eq_false]
    intro cid hcid
    simp only [decide_eq_true_eq]
    intro h
    exact hnotin (h ▸ hcid)
  rw [hany]
  simp only [Bool.false_eq_true, if_false]
  refine ⟨?_, ?_, ?_⟩
  · unfold childrenOf
    rw [assocLookup_assocSet_self]
    rfl
  · intro x
    unfold childCount
    dsimp only
    have h := sum_map_assocSet_update s.nodes p
      { parent with children := parent.children ++ [c] } parent
      (fun nd => nd.children.count x) hp
    dsimp only at h
    rw [List.count_append] at h
    by_cases hx : x = c
    · subst hx
      have hc1 : [x].count x = 1 := by simp
      rw [hc1] at h
      have hif : (if x = x then 1 else 0) = 1 := by simp
      rw [hif]
      omega
    · have hc0 : [c].count x = 0 := by
        simp [List.count_singleton', hx]
      rw [hc0] at h
      simp only [if_neg hx]
      omega
  · exact keys_assocSet_mem _ _ _
      ((assocLookup_isSome_iff_mem _ _).mp (by rw [hp]; rfl))

theorem attach_step (s : CMState) (c fid : String)
    (h : (assocLookup s.nodes fid).isSome = true)
    (hnotin : c ∉ childrenOf s fid) :
    childrenOf (attach_to_parent s c fid) fid = childrenOf s fid ++ [c] ∧
    (∀ x, childCount (attach_to_parent s c fid) x
      = childCount s x + (if x = c then 1 else 0)) ∧
    (attach_to_parent s c fid).nodes.map Prod.fst = s.nodes.map Prod.fst := by
  obtain ⟨parent, hp⟩ := Option.isSome_iff_exists.mp h
  unfold attach_to_parent
  rw [hp]
  dsimp only
  set s1 := setChildParentId s c parent.id with hs1
  have hkeys1 : s1.nodes.map Prod.fst = s.nodes.map Prod.fst :=
    keys_setChildParentId s c parent.id
  have hch1 : childrenOf s1 fid = childrenOf s fid :=
    childrenOf_setChildParentId s c parent.id fid
  have hp1 : (assocLookup s1.nodes fid).isSome = true := by
    rw [assocLookup_isSome_iff_mem, hkeys1, ← assocLookup_isSome_iff_mem]
    exact h
  obtain ⟨parent1, hp1'⟩ := Option.isSome_iff_exists.mp hp1
  have hpc1 : parent1.children = childrenOf s fid := by
    rw [← hch1]
    unfold childrenOf
    rw [hp1']
    rfl
  have hnotin1 : c ∉ parent1.children := by
    rw [hpc1]
    exact hnotin
  have happ := appendChild_step s1 fid c parent1 hp1' hnotin1
  refine ⟨?_, ?_, ?_⟩
  · rw [happ.1, hpc1]
  · intro x
    rw [happ.2.1 x, childCount_setChildParentId]
  · rw [happ.2.2, hkeys1]

theorem foldl_attach_adopt (fid : String) :
    ∀ (iter : List String) (s : CMState),
    (assocLookup s.nodes fid).isSome = true → iter.Nodup →
    (∀ oid ∈ iter, oid ∉ childrenOf s fid) →
    childrenOf (iter.foldl (fun acc oid => attach_to_parent acc oid fid) s) fid
      = childrenOf s fid ++ iter ∧
    (∀ x, childCount (iter.foldl (fun acc oid => attach_to_parent acc oid fid) s) x
      = childCount s x + (if x ∈ iter then 1 else 0)) ∧
    (iter.foldl (fun acc oid => attach_to_parent acc oid fid) s).nodes.map Prod.fst
      = s.nodes.map Prod.fst := by
  intro iter
  induction iter with
  | nil =>
      intro s _ _ _
      exact ⟨by simp, by simp, rfl⟩
  | cons oid rest ih =>
      intro s hsome hnodup hnotin
      simp only [List.foldl_cons]
      have hstep := attach_step s oid fid hsome (hnotin oid (List.mem_cons_self _ _))
      set s' := attach_to_parent s oid fid with hs'
      have hsome' : (assocLookup s'.nodes fid).isSome = true := by
        rw [assocLookup_isSome_iff_mem, hstep.2.2, ← assocLookup_isSome_iff_mem]
        exact hsome
      have hnodup' := hnodup.of_cons
      have hoid_rest : oid ∉ rest := (List.nodup_cons.mp hnodup).1
      have hnotin' : ∀ o ∈ rest, o ∉ childrenOf s' fid := by
        intro o ho
        rw [hstep.1]
        intro hmem
        rcases List.mem_append.mp hmem with hmem | hmem
        · exact hnotin o (List.mem_cons_of_mem _ ho) hmem
        · have : o = oid := by simpa using hmem
          exact hoid_rest (this ▸ ho)
      have hrec := ih s' hsome' hnodup' hnotin'
      refine ⟨?_, ?_, ?_⟩
      · rw [hrec.1, hstep.1, List.append_assoc]
        rfl
      · intro x
        rw [hrec.2.1 x, hstep.2.1 x]
        by_cases hx : x = oid
        · subst hx
          have : x ∉ rest := hoid_rest
          simp [this]
        · by_cases hxr : x ∈ rest
          · simp [hx, hxr, List.mem_cons]
          · have : x ∉ oid :: rest := by
              simp [hx, hxr]
            simp [hx, hxr, this]
      · rw [hrec.2.2, hstep.2.2]

/-- Effect of `_handle_orphaned_node` on the placement counts. -/
theorem handle_orphaned_counts (s : CMState) (nid ep : String) :
    (∀ x, bucketCount (handle_orphaned s nid ep) x
      = bucketCount s x + (if x = nid then 1 else 0)) ∧
    (∀ x, childCount (handle_orphaned s nid ep) x = childCount s x) := by
  constructor
  · intro x
    unfold handle_orphaned bucketCount
    have hcnt : ([nid].count x) = (if x = nid then 1 else 0) := by
      by_cases hx : x = nid
      · simp [hx]
      · simp [List.count_singleton', hx]
    cases hb : assocLookup s.orphaned ep with
    | none =>
        dsimp only
        have := sum_map_append_one s.orphaned ep [nid]
          (fun b => b.count x)
        rw [this, hcnt]
    | some bucket =>
        dsimp only
        have h := sum_map_assocSet_update s.orphaned ep
          (bucket ++ [nid]) bucket (fun b => b.count x) hb
        dsimp only at h
        rw [List.count_append, hcnt] at h
        omega
  · intro x
    unfold childCount
    rw [(handle_orphaned_spec s nid ep).2.2.1]

/-! More association-list facts used by the placement invariant. -/

theorem mem_of_assocLookup {α : Type} (l : List (String × α)) (k : String)
    (v : α) (h : assocLookup l k = some v) : (k, v) ∈ l := by
  induction l with
  | nil => simp [assocLookup] at h
  | cons kv t ih =>
      simp only [assocLookup] at h
      by_cases hk : kv.1 = k
      · rw [if_pos hk] at h
        have hv : kv.2 = v := by injection h
        have : kv = (k, v) := by
          rw [← hk, ← hv]
        rw [← this]
        exact List.mem_cons_self _ _
      · rw [if_neg hk] at h
        exact List.mem_cons_of_mem _ (ih h)

theorem assocLookup_of_mem_nodup {α : Type} (l : List (String × α))
    (hnd : (l.map Prod.fst).Nodup) (k : String) (v : α) (h : (k, v) ∈ l) :
    assocLookup l k = some v := by
  induction l with
  | nil => simp at h
  | cons kv t ih =>
      simp only [List.map_cons, List.nodup_cons] at hnd
      rcases List.mem_cons.mp h with h | h
      · rw [← h]
        simp [assocLookup]
      · have hk : kv.1 ≠ k := by
          intro hkk
          exact hnd.1 (hkk ▸ (List.mem_map.mpr ⟨(k, v), h, rfl⟩))
        simp only [assocLookup, if_neg hk]
        exact ih hnd.2 h

theorem pair_unique_of_nodup {α : Type} (l : List (String × α))
    (hnd : (l.map Prod.fst).Nodup) (k : String) (v1 v2 : α)
    (h1 : (k, v1) ∈ l) (h2 : (k, v2) ∈ l) : v1 = v2 := by
  have e1 := assocLookup_of_mem_nodup l hnd k v1 h1
  have e2 := assocLookup_of_mem_nodup l hnd k v2 h2
  rw [e1] at e2
  simpa using e2

theorem bucketCount_eq_zero (s : CMState) (x : String)
    (h : ∀ b ∈ s.orphaned, x ∉ b.2) : bucketCount s x = 0 := by
  unfold bucketCount
  rw [List.sum_eq_zero]
  intro n hn
  rcases List.mem_map.mp hn with ⟨b, hb, rfl⟩
  exact List.count_eq_zero.mpr (h b hb)

theorem childCount_eq_zero (s : CMState) (x : String)
    (h : ∀ kv ∈ s.nodes, x ∉ kv.2.children) : childCount s x = 0 := by
  unfold childCount
  rw [List.sum_eq_zero]
  intro n hn
  rcases List.mem_map.mp hn with ⟨kv, hkv, rfl⟩
  exact List.count_eq_zero.mpr (h kv hkv)

theorem bucket_count_le_bucketCount (s : CMState) (p : String)
    (bucket : List String) (hb : (p, bucket) ∈ s.orphaned) (x : String) :
    bucket.count x ≤ bucketCount s x := by
  unfold bucketCount
  exact List.single_le_sum (fun n _ => Nat.zero_le n) _
    (List.mem_map.mpr ⟨(p, bucket), hb, rfl⟩)

/--
The placement invariant behind the amended C4, relative to the ghost
creation record `g`: keys of the store and of the ghost record coincide,
orphan buckets are keyed by absent parents and are never empty, bucket and
children entries reference stored nodes, the root was created parentless
and sits in no bucket and no child list, and every created node is placed
according to how it was created — with a truthy parent id: in exactly one
bucket slot or one child slot; parentless: in no bucket and at most one
child slot (the root-exchange case).
-/
structure TreeInv (s : CMState) (g : List (String × Bool)) : Prop where
  created_dom : g.map Prod.fst = s.nodes.map Prod.fst
  nodes_nodup : (s.nodes.map Prod.fst).Nodup
  orph_nodup : (s.orphaned.map Prod.fst).Nodup
  orph_key_fresh : ∀ b ∈ s.orphaned, assocLookup s.nodes b.1 = none
  orph_nonempty : ∀ b ∈ s.orphaned, b.2 ≠ []
  bucket_mem : ∀ b ∈ s.orphaned, ∀ nid ∈ b.2, nid ∈ s.nodes.map Prod.fst
  child_mem : ∀ kv ∈ s.nodes, ∀ cid ∈ kv.2.children, cid ∈ s.nodes.map Prod.fst
  root_flags : ∀ r, s.root = some r → assocLookup g r = some false
  root_counts : ∀ r, s.root = some r →
    r ∈ s.nodes.map Prod.fst ∧ bucketCount s r = 0 ∧ childCount s r = 0
  counts : ∀ p ∈ g,
    (p.2 = true → bucketCount s p.1 + childCount s p.1 = 1) ∧
    (p.2 = false → bucketCount s p.1 = 0 ∧ childCount s p.1 ≤ 1)

/-- The invariant only depends on the store, the orphan map and the root. -/
theorem TreeInv_congr (s s' : CMState) (g : List (String × Bool))
    (hn : s'.nodes = s.nodes) (ho : s'.orphaned = s.orphaned)
    (hr : s'.root = s.root) (h : TreeInv s g) : TreeInv s' g := by
  have hbc : ∀ x, bucketCount s' x = bucketCount s x := by
    intro x
    unfold bucketCount
    rw [ho]
  have hcc : ∀ x, childCount s' x = childCount s x := by
    intro x
    unfold childCount
    rw [hn]
  refine ⟨?_, ?_, ?_, ?_, ?_, ?_, ?_, ?_, ?_, ?_⟩
  · rw [hn]; exact h.created_dom
  · rw [hn]; exact h.nodes_nodup
  · rw [ho]; exact h.orph_nodup
  · rw [ho, hn]; exact h.orph_key_fresh
  · rw [ho]; exact h.orph_nonempty
  · rw [ho, hn]; exact h.bucket_mem
  · rw [hn]; exact h.child_mem
  · rw [hr]; exact h.root_flags
  · intro r hroot
    rw [hr] at hroot
    rw [hn, hbc, hcc]
    exact h.root_counts r hroot
  · intro p hp
    simp only [hbc, hcc]
    exact h.counts p hp

/-- The invariant survives the conditional flush trigger. -/
theorem TreeInv_trigger (c : Bool) (s : CMState) (g : List (String × Bool))
    (h : TreeInv s g) :
    TreeInv (if c then update_checkpoint s else s) g := by
  split
  · exact TreeInv_congr s (update_checkpoint s) g (update_checkpoint_parts s).1
      (update_checkpoint_parts s).2.1 (update_checkpoint_parts s).2.2.2.2 h
  · exact h

/-- Replacing a stored node by one with the same children preserves the
invariant (the shape of `complete_node`, `add_metadata` and
`update_node`). -/
theorem TreeInv_set_same_children (s : CMState) (g : List (String × Bool))
    (id : String) (node node' : ENode) (h : TreeInv s g)
    (hl : assocLookup s.nodes id = some node)
    (hch : node'.children = node.children) :
    TreeInv { s with nodes := assocSet s.nodes id node' } g := by
  have hmem : id ∈ s.nodes.map Prod.fst :=
    (assocLookup_isSome_iff_mem _ _).mp (by rw [hl]; rfl)
  have hkeys : (assocSet s.nodes id node').map Prod.fst = s.nodes.map Prod.fst :=
    keys_assocSet_mem _ _ _ hmem
  have hcc : ∀ x, childCount { s with nodes := assocSet s.nodes id node' } x
      = childCount s x := by
    intro x
    unfold childCount
    dsimp only
    have hsum := sum_map_assocSet_update s.nodes id node' node
      (fun nd => nd.children.count x) hl
    dsimp only at hsum
    rw [hch] at hsum
    omega
  have hbc : ∀ x, bucketCount { s with nodes := assocSet s.nodes id node' } x
      = bucketCount s x := fun x => rfl
  refine ⟨?_, ?_, ?_, ?_, ?_, ?_, ?_, ?_, ?_, ?_⟩
  · dsimp only; rw [hkeys]; exact h.created_dom
  · dsimp only; rw [hkeys]; exact h.nodes_nodup
  · exact h.orph_nodup
  · intro b hb
    dsimp only
    rw [assocLookup_eq_none_iff, hkeys, ← assocLookup_eq_none_iff]
    exact h.orph_key_fresh b hb
  · exact h.orph_nonempty
  · intro b hb nid hnid
    dsimp only
    rw [hkeys]
    exact h.bucket_mem b hb nid hnid
  · intro kv hkv cid hcid
    dsimp only at hkv ⊢
    rw [hkeys]
    rcases mem_assocSet_sub _ _ _ _ hkv with hkv | hkv
    · exact h.child_mem kv hkv cid hcid
    · subst hkv
      dsimp only at hcid
      rw [hch] at hcid
      exact h.child_mem (id, node) (mem_of_assocLookup _ _ _ hl) cid hcid
  · exact h.root_flags
  · intro r hroot
    rw [hbc, hcc]
    dsimp only
    rw [hkeys]
    exact h.root_counts r hroot
  · intro p hp
    simp only [hbc, hcc]
    exact h.counts p hp

/-- `complete_node` preserves the placement invariant. -/
theorem TreeInv_complete (s : CMState) (g : List (String × Bool)) (id : String)
    (out : PyVal) (t : Nat) (h : TreeInv s g) :
    TreeInv (complete_node s id out t) g := by
  unfold complete_node
  cases hl : assocLookup s.nodes id with
  | none => exact h
  | some node =>
      dsimp only
      refine TreeInv_congr _ _ g (update_checkpoint_parts _).1
        (update_checkpoint_parts _).2.1 (update_checkpoint_parts _).2.2.2.2 ?_
      exact TreeInv_set_same_children s g id node _ h hl rfl

/-- `add_metadata` preserves the placement invariant. -/
theorem TreeInv_addMeta (s : CMState) (g : List (String × Bool)) (id : String)
    (md : List (String × PyVal)) (h : TreeInv s g) :
    TreeInv (add_metadata s id md) g := by
  unfold add_metadata
  cases hl : assocLookup s.nodes id with
  | none => exact h
  | some node =>
      dsimp only
      refine TreeInv_congr _ _ g (update_checkpoint_parts _).1
        (update_checkpoint_parts _).2.1 (update_checkpoint_parts _).2.2.2.2 ?_
      exact TreeInv_set_same_children s g id node _ h hl rfl

/-- Field patches never touch the children list. -/
theorem applyUpdate_children (n : ENode) (kv : String × PyVal) :
    (applyUpdate n kv).children = n.children := by
  unfold applyUpdate
  split
  · rfl
  · split
    · rfl
    · split <;> rfl

theorem foldl_applyUpdate_children (updates : List (String × PyVal)) :
    ∀ n : ENode, (updates.foldl applyUpdate n).children = n.children := by
  induction updates with
  | nil => intro n; rfl
  | cons kv rest ih =>
      intro n
      simp only [List.foldl_cons]
      rw [ih (applyUpdate n kv), applyUpdate_children]

/-- `update_node` preserves the placement invariant. -/
theorem TreeInv_patch (s : CMState) (g : List (String × Bool)) (id : String)
    (updates : List (String × PyVal)) (h : TreeInv s g) :
    TreeInv (update_node s id updates) g := by
  unfold update_node
  cases hl : assocLookup s.nodes id with
  | none => exact h
  | some node =>
      dsimp only
      refine TreeInv_congr _ _ g (update_checkpoint_parts _).1
        (update_checkpoint_parts _).2.1 (update_checkpoint_parts _).2.2.2.2 ?_
      exact TreeInv_set_same_children s g id node _ h hl
        (foldl_applyUpdate_children updates node)

theorem bucketCount_pos_of_mem (s : CMState) (p : String) (bucket : List String)
    (hb : (p, bucket) ∈ s.orphaned) (x : String) (hx : x ∈ bucket) :
    1 ≤ bucketCount s x := by
  have h1 : 1 ≤ bucket.count x := List.one_le_count_iff.mpr hx
  exact le_trans h1 (bucket_count_le_bucketCount s p bucket hb x)

theorem childCount_pos_of_mem (s : CMState) (q : String) (x : String)
    (hx : x ∈ childrenOf s q) : 1 ≤ childCount s x := by
  unfold childrenOf at hx
  cases hq : assocLookup s.nodes q with
  | none => rw [hq] at hx; simp at hx
  | some node =>
      rw [hq] at hx
      have hx' : x ∈ node.children := hx
      have h1 : 1 ≤ node.children.count x := List.one_le_count_iff.mpr hx'
      refine le_trans h1 ?_
      unfold childCount
      exact List.single_le_sum (fun n _ => Nat.zero_le n) _
        (List.mem_map.mpr ⟨(q, node), mem_of_assocLookup _ _ _ hq, rfl⟩)

/-- In an invariant-like state, a bucket member occupies exactly its bucket
slot: one bucket occurrence, no child occurrence, ghost bit `true`. -/
theorem bucket_member_facts (s : CMState) (g : List (String × Bool))
    (hdom : g.map Prod.fst = s.nodes.map Prod.fst)
    (hbm : ∀ b ∈ s.orphaned, ∀ nid ∈ b.2, nid ∈ s.nodes.map Prod.fst)
    (hcounts : ∀ p ∈ g,
      (p.2 = true → bucketCount s p.1 + childCount s p.1 = 1) ∧
      (p.2 = false → bucketCount s p.1 = 0 ∧ childCount s p.1 ≤ 1))
    (p : String) (bucket : List String) (hb : (p, bucket) ∈ s.orphaned)
    (x : String) (hx : x ∈ bucket) :
    bucketCount s x = 1 ∧ childCount s x = 0 ∧ (x, true) ∈ g := by
  have hxmem : x ∈ s.nodes.map Prod.fst := hbm _ hb x hx
  rw [← hdom] at hxmem
  obtain ⟨q, hq, hq1⟩ := List.mem_map.mp hxmem
  have hpos : 1 ≤ bucketCount s x := bucketCount_pos_of_mem s p bucket hb x hx
  cases hbit : q.2 with
  | false =>
      have hz := (hcounts q hq).2 hbit
      rw [hq1] at hz
      omega
  | true =>
      have hone := (hcounts q hq).1 hbit
      rw [hq1] at hone
      have hqeq : q = (x, true) := Prod.ext hq1 hbit
      refine ⟨by omega, by omega, hqeq ▸ hq⟩

/-- Attaching preserves any property of children-list members, as long as
the attached child has it. -/
theorem attach_child_mem (s : CMState) (c p : String) (P : String → Prop)
    (hP : ∀ kv ∈ s.nodes, ∀ cid ∈ kv.2.children, P cid) (hPc : P c) :
    ∀ kv ∈ (attach_to_parent s c p).nodes, ∀ cid ∈ kv.2.children, P cid := by
  unfold attach_to_parent
  cases hp : assocLookup s.nodes p with
  | none => exact hP
  | some parent =>
      dsimp only
      have h1 : ∀ kv ∈ (setChildParentId s c parent.id).nodes,
          ∀ cid ∈ kv.2.children, P cid := by
        unfold setChildParentId
        cases hc : assocLookup s.nodes c with
        | none => exact hP
        | some child =>
            dsimp only
            intro kv hkv cid hcid
            rcases mem_assocSet_sub _ _ _ _ hkv with hkv | hkv
            · exact hP kv hkv cid hcid
            · subst hkv
              exact hP (c, child) (mem_of_assocLookup _ _ _ hc) cid hcid
      unfold appendChild
      cases hq : assocLookup (setChildParentId s c parent.id).nodes p with
      | none => exact h1
      | some parent1 =>
          dsimp only
          split
          · exact h1
          · intro kv hkv cid hcid
            rcases mem_assocSet_sub _ _ _ _ hkv with hkv | hkv
            · exact h1 kv hkv cid hcid
            · subst hkv
              dsimp only at hcid
              rcases List.mem_append.mp hcid with hcid | hcid
              · exact h1 (p, parent1) (mem_of_assocLookup _ _ _ hq) cid hcid
              · have : cid = c := by simpa using hcid
                exact this ▸ hPc

theorem foldl_attach_child_mem (fid : String) (iter : List String) :
    ∀ (s : CMState) (P : String → Prop),
    (∀ kv ∈ s.nodes, ∀ cid ∈ kv.2.children, P cid) → (∀ oid ∈ iter, P oid) →
    ∀ kv ∈ (iter.foldl (fun acc oid => attach_to_parent acc oid fid) s).nodes,
      ∀ cid ∈ kv.2.children, P cid := by
  induction iter with
  | nil => intro s P hP _; exact hP
  | cons oid rest ih =>
      intro s P hP hiter
      simp only [List.foldl_cons]
      exact ih _ P
        (attach_child_mem s oid fid P hP (hiter oid (List.mem_cons_self _ _)))
        (fun o ho => hiter o (List.mem_cons_of_mem _ ho))

theorem childrenOf_attach_ne (s : CMState) (c p q : String) (h : q ≠ p) :
    childrenOf (attach_to_parent s c p) q = childrenOf s q := by
  unfold attach_to_parent
  cases hp : assocLookup s.nodes p with
  | none => rfl
  | some parent =>
      dsimp only
      rw [childrenOf_appendChild_ne _ _ _ _ h, childrenOf_setChildParentId]

/-- Entries of the orphan map after `_handle_orphaned_node`. -/
theorem handle_orphaned_mem_sub (s : CMState) (nid ep : String)
    (b : String × List String) (hb : b ∈ (handle_orphaned s nid ep).orphaned) :
    b ∈ s.orphaned ∨ b = (ep, bucketOf s ep ++ [nid]) := by
  unfold handle_orphaned at hb
  unfold bucketOf
  cases hl : assocLookup s.orphaned ep with
  | none =>
      rw [hl] at hb
      dsimp only at hb
      rcases List.mem_append.mp hb with hb | hb
      · exact Or.inl hb
      · right
        simpa using hb
  | some bucket =>
      rw [hl] at hb
      dsimp only at hb
      rcases mem_assocSet_sub _ _ _ _ hb with hb | hb
      · exact Or.inl hb
      · right
        exact hb

/-- Keys of the orphan map after `_handle_orphaned_node`. -/
theorem handle_orphaned_keys (s : CMState) (nid ep : String) :
    (handle_orphaned s nid ep).orphaned.map Prod.fst = s.orphaned.map Prod.fst ∨
    ((handle_orphaned s nid ep).orphaned.map Prod.fst
        = s.orphaned.map Prod.fst ++ [ep] ∧ ep ∉ s.orphaned.map Prod.fst) := by
  unfold handle_orphaned
  cases hl : assocLookup s.orphaned ep with
  | none =>
      right
      constructor
      · simp
      · exact (assocLookup_eq_none_iff _ _).mp hl
  | some bucket =>
      left
      exact keys_assocSet_mem _ _ _
        ((assocLookup_isSome_iff_mem _ _).mp (by rw [hl]; rfl))

/--
The state of `add_node` just before the orphan-adoption step for the fresh
node `fid`: like `TreeInv` except that one orphan bucket may be keyed by
`fid` (which now exists), and the fresh node's children so far (empty, or
the adopted old root) were all created parentless.
-/
structure PreInv (s : CMState) (g : List (String × Bool)) (fid : String) : Prop where
  created_dom : g.map Prod.fst = s.nodes.map Prod.fst
  nodes_nodup : (s.nodes.map Prod.fst).Nodup
  orph_nodup : (s.orphaned.map Prod.fst).Nodup
  orph_key_ok : ∀ b ∈ s.orphaned, b.1 = fid ∨ assocLookup s.nodes b.1 = none
  orph_nonempty : ∀ b ∈ s.orphaned, b.2 ≠ []
  bucket_mem : ∀ b ∈ s.orphaned, ∀ nid ∈ b.2, nid ∈ s.nodes.map Prod.fst
  child_mem : ∀ kv ∈ s.nodes, ∀ cid ∈ kv.2.children, cid ∈ s.nodes.map Prod.fst
  root_flags : ∀ r, s.root = some r → assocLookup g r = some false
  root_counts : ∀ r, s.root = some r →
    r ∈ s.nodes.map Prod.fst ∧ bucketCount s r = 0 ∧ childCount s r = 0
  counts : ∀ p ∈ g,
    (p.2 = true → bucketCount s p.1 + childCount s p.1 = 1) ∧
    (p.2 = false → bucketCount s p.1 = 0 ∧ childCount s p.1 ≤ 1)
  fid_mem : fid ∈ s.nodes.map Prod.fst
  fid_children_flag : ∀ x ∈ childrenOf s fid, (x, false) ∈ g

/-- The orphan-adoption step turns the pre-adoption invariant into the full
placement invariant: waiting orphans move from their (deleted) bucket slot
to exactly one child slot of the new node, everyone else keeps their
placement. -/
theorem TreeInv_adopt (s : CMState) (g : List (String × Bool)) (fid : String)
    (iter : List String) (h : PreInv s g fid)
    (hperm : iter.Perm (bucketOf s fid)) :
    TreeInv (adopt_waiting s fid iter) g := by
  have hgnd : (g.map Prod.fst).Nodup := h.created_dom ▸ h.nodes_nodup
  unfold adopt_waiting
  cases hl : assocLookup s.orphaned fid with
  | none =>
      refine ⟨h.created_dom, h.nodes_nodup, h.orph_nodup, ?_, h.orph_nonempty,
        h.bucket_mem, h.child_mem, h.root_flags, h.root_counts, h.counts⟩
      intro b hb
      rcases h.orph_key_ok b hb with hbf | hbn
      · exfalso
        have hmem : (b.1, b.2) ∈ s.orphaned := by
          rw [Prod.mk.eta]
          exact hb
        have hsome := assocLookup_of_mem_nodup _ h.orph_nodup b.1 b.2 hmem
        rw [hbf, hl] at hsome
        exact Option.noConfusion hsome
      · exact hbn
  | some bucket =>
      have hbmem : (fid, bucket) ∈ s.orphaned := mem_of_assocLookup _ _ _ hl
      have hbne : bucket ≠ [] := h.orph_nonempty (fid, bucket) hbmem
      have hbisEmpty : bucket.isEmpty = false := by
        cases bucket with
        | nil => exact absurd rfl hbne
        | cons a t => rfl
      dsimp only
      rw [hbisEmpty]
      simp only [Bool.false_eq_true, if_false]
      have hbucketOf : bucketOf s fid = bucket := by
        unfold bucketOf
        rw [hl]
        rfl
      rw [hbucketOf] at hperm
      have hmf : ∀ x ∈ bucket,
          bucketCount s x = 1 ∧ childCount s x = 0 ∧ (x, true) ∈ g :=
        fun x hx => bucket_member_facts s g h.created_dom h.bucket_mem h.counts
          fid bucket hbmem x hx
      have hbnd : bucket.Nodup := by
        rw [List.nodup_iff_count_le_one]
        intro a
        by_cases ha : a ∈ bucket
        · have h1 := (hmf a ha).1
          have hle := bucket_count_le_bucketCount s fid bucket hbmem a
          omega
        · rw [List.count_eq_zero.mpr ha]
          omega
      have hind : iter.Nodup := hperm.nodup_iff.mpr hbnd
      have hsome : (assocLookup s.nodes fid).isSome = true := by
        rw [assocLookup_isSome_iff_mem]
        exact h.fid_mem
      have hnotin : ∀ oid ∈ iter, oid ∉ childrenOf s fid := by
        intro oid ho hmem
        have h1 : (oid, true) ∈ g := (hmf oid (hperm.subset ho)).2.2
        have h2 : (oid, false) ∈ g := h.fid_children_flag oid hmem
        exact Bool.noConfusion (pair_unique_of_nodup g hgnd oid true false h1 h2)
      have hfold := foldl_attach_adopt fid iter s hsome hind hnotin
      have hforf := foldl_attach_parts fid iter s
      set sf := iter.foldl (fun acc oid => attach_to_parent acc oid fid) s with hsf
      have hkeysf : sf.nodes.map Prod.fst = s.nodes.map Prod.fst := hfold.2.2
      have horfsf : sf.orphaned = s.orphaned := hforf.1
      have hrootsf : sf.root = s.root := hforf.2.1
      have hccf : ∀ x, childCount sf x
          = childCount s x + (if x ∈ iter then 1 else 0) := hfold.2.1
      have hbcf : ∀ x, bucketCount sf x = bucketCount s x := by
        intro x
        unfold bucketCount
        rw [horfsf]
      have herase : ∀ x,
          bucketCount { sf with orphaned := assocErase sf.orphaned fid } x
            + bucket.count x = bucketCount s x := by
        intro x
        unfold bucketCount
        dsimp only
        rw [horfsf]
        exact sum_map_assocErase s.orphaned fid bucket (fun b => b.count x) hl
      have hfid_not_erase : fid ∉ (assocErase sf.orphaned fid).map Prod.fst := by
        rw [← assocLookup_eq_none_iff]
        rw [horfsf]
        exact assocLookup_assocErase_self _ _ h.orph_nodup
      refine ⟨?_, ?_, ?_, ?_, ?_, ?_, ?_, ?_, ?_, ?_⟩
      · dsimp only
        rw [hkeysf]
        exact h.created_dom
      · dsimp only
        rw [hkeysf]
        exact h.nodes_nodup
      · dsimp only
        rw [horfsf]
        exact (keys_assocErase_sublist _ _).nodup h.orph_nodup
      · intro b hb
        dsimp only at hb ⊢
        have hbne_fid : b.1 ≠ fid := by
          intro hbf
          have hmm : b.1 ∈ (assocErase sf.orphaned fid).map Prod.fst :=
            List.mem_map.mpr ⟨b, hb, rfl⟩
          rw [hbf] at hmm
          exact hfid_not_erase hmm
        have hbmem' : b ∈ s.orphaned := by
          rw [horfsf] at hb
          exact mem_assocErase_sub _ _ _ hb
        rcases h.orph_key_ok b hbmem' with hbf | hbn
        · exact absurd hbf hbne_fid
        · rw [assocLookup_eq_none_iff, hkeysf, ← assocLookup_eq_none_iff]
          exact hbn
      · intro b hb
        dsimp only at hb
        rw [horfsf] at hb
        exact h.orph_nonempty b (mem_assocErase_sub _ _ _ hb)
      · intro b hb nid hnid
        dsimp only at hb ⊢
        rw [horfsf] at hb
        rw [hkeysf]
        exact h.bucket_mem b (mem_assocErase_sub _ _ _ hb) nid hnid
      · intro kv hkv cid hcid
        dsimp only at hkv ⊢
        rw [hkeysf]
        refine foldl_attach_child_mem fid iter s (fun z => z ∈ s.nodes.map Prod.fst)
          h.child_mem ?_ kv hkv cid hcid
        intro oid ho
        exact h.bucket_mem (fid, bucket) hbmem oid (hperm.subset ho)
      · intro r hroot
        dsimp only at hroot
        rw [hrootsf] at hroot
        exact h.root_flags r hroot
      · intro r hroot
        dsimp only at hroot ⊢
        rw [hrootsf] at hroot
        obtain ⟨hrm, hrb, hrc⟩ := h.root_counts r hroot
        have hrnotiter : r ∉ iter := by
          intro hriter
          have h1 : (r, true) ∈ g := (hmf r (hperm.subset hriter)).2.2
          have h2 : (r, false) ∈ g :=
            mem_of_assocLookup _ _ _ (h.root_flags r hroot)
          exact Bool.noConfusion (pair_unique_of_nodup g hgnd r true false h1 h2)
        have hbcr := herase r
        have hlecount := bucket_count_le_bucketCount s fid bucket hbmem r
        have hccr : childCount { sf with orphaned := assocErase sf.orphaned fid } r
            = childCount sf r := rfl
        refine ⟨by rw [hkeysf]; exact hrm, by omega, ?_⟩
        rw [hccr, hccf r, if_neg hrnotiter]
        omega
      · intro p hp
        have hbcp := herase p.1
        have hccp : childCount { sf with orphaned := assocErase sf.orphaned fid } p.1
            = childCount sf p.1 := rfl
        by_cases hpit : p.1 ∈ iter
        · have hpb : p.1 ∈ bucket := hperm.subset hpit
          obtain ⟨hb1, hc0, hpt⟩ := hmf p.1 hpb
          have hpeq : p.2 = true := by
            obtain ⟨pa, pb⟩ := p
            exact pair_unique_of_nodup g hgnd pa pb true hp hpt
          have hcnt1 : 1 ≤ bucket.count p.1 := List.one_le_count_iff.mpr hpb
          have hle := bucket_count_le_bucketCount s fid bucket hbmem p.1
          constructor
          · intro _
            rw [hccp, hccf p.1, if_pos hpit]
            omega
          · intro hfalse
            rw [hpeq] at hfalse
            exact Bool.noConfusion hfalse
        · have hpnb : p.1 ∉ bucket := fun hc => hpit (hperm.mem_iff.mpr hc)
          have hcnt0 : bucket.count p.1 = 0 := List.count_eq_zero.mpr hpnb
          have hold := h.counts p hp
          constructor
          · intro htrue
            have := hold.1 htrue
            rw [hccp, hccf p.1, if_neg hpit]
            omega
          · intro hfalse
            have := hold.2 hfalse
            rw [hccp, hccf p.1, if_neg hpit]
            omega

theorem mem_childrenOf_keys (s : CMState)
    (hcm : ∀ kv ∈ s.nodes, ∀ cid ∈ kv.2.children, cid ∈ s.nodes.map Prod.fst)
    (q x : String) (hx : x ∈ childrenOf s q) : x ∈ s.nodes.map Prod.fst := by
  unfold childrenOf at hx
  cases hq : assocLookup s.nodes q with
  | none => rw [hq] at hx; simp at hx
  | some nd =>
      rw [hq] at hx
      have hx' : x ∈ nd.children := hx
      exact hcm (q, nd) (mem_of_assocLookup _ _ _ hq) x hx'

theorem mem_bucketOf_keys (s : CMState)
    (hbm : ∀ b ∈ s.orphaned, ∀ nid ∈ b.2, nid ∈ s.nodes.map Prod.fst)
    (q x : String) (hx : x ∈ bucketOf s q) : x ∈ s.nodes.map Prod.fst := by
  unfold bucketOf at hx
  cases hq : assocLookup s.orphaned q with
  | none => rw [hq] at hx; simp at hx
  | some bucket =>
      rw [hq] at hx
      have hx' : x ∈ bucket := hx
      exact hbm (q, bucket) (mem_of_assocLookup _ _ _ hq) x hx'

/-- Facts about appending the fresh creation to the ghost record. -/
theorem ghost_append_facts (s : CMState) (g : List (String × Bool)) (fid : String)
    (flag : Bool) (h : TreeInv s g) (hfr : assocLookup s.nodes fid = none) :
    (g ++ [(fid, flag)]).map Prod.fst = g.map Prod.fst ++ [fid] ∧
    assocLookup (g ++ [(fid, flag)]) fid = some flag ∧
    (∀ r, r ∈ g.map Prod.fst →
      assocLookup (g ++ [(fid, flag)]) r = assocLookup g r) ∧
    (∀ p ∈ g, p.1 ≠ fid) ∧
    (∀ p, p ∈ g ++ [(fid, flag)] → p ∈ g ∨ p = (fid, flag)) := by
  have hfid_not : fid ∉ s.nodes.map Prod.fst := (assocLookup_eq_none_iff _ _).mp hfr
  have hfid_not_g : fid ∉ g.map Prod.fst := by
    rw [h.created_dom]
    exact hfid_not
  refine ⟨by simp, ?_, ?_, ?_, ?_⟩
  · exact assocLookup_append_self _ _ _ (assocLookup_eq_none_of_not_mem _ _ hfid_not_g)
  · intro r hr
    have hrne : r ≠ fid := by
      intro he
      exact hfid_not_g (he ▸ hr)
    exact assocLookup_append_ne _ _ _ _ hrne
  · intro p hp hpe
    exact hfid_not_g (hpe ▸ List.mem_map.mpr ⟨p, hp, rfl⟩)
  · intro p hp
    rcases List.mem_append.mp hp with hp | hp
    · exact Or.inl hp
    · exact Or.inr (by simpa using hp)

/-- Facts about the store right after `add_node` inserts the freshly built
node (children empty) under the fresh id. -/
theorem insert_fresh_facts (s : CMState) (g : List (String × Bool)) (fid : String)
    (node : ENode) (h : TreeInv s g) (hfr : assocLookup s.nodes fid = none)
    (hnch : node.children = []) :
    ({ s with nodes := assocSet s.nodes fid node } : CMState).nodes.map Prod.fst
        = s.nodes.map Prod.fst ++ [fid] ∧
    ((({ s with nodes := assocSet s.nodes fid node } : CMState).nodes.map
        Prod.fst).Nodup) ∧
    childrenOf { s with nodes := assocSet s.nodes fid node } fid = [] ∧
    (∀ q, q ≠ fid → childrenOf { s with nodes := assocSet s.nodes fid node } q
        = childrenOf s q) ∧
    (∀ x, childCount { s with nodes := assocSet s.nodes fid node } x
        = childCount s x) ∧
    (∀ kv ∈ ({ s with nodes := assocSet s.nodes fid node } : CMState).nodes,
        ∀ cid ∈ kv.2.children, cid ∈ s.nodes.map Prod.fst) ∧
    bucketCount s fid = 0 ∧ childCount s fid = 0 := by
  have hfid_not : fid ∉ s.nodes.map Prod.fst := (assocLookup_eq_none_iff _ _).mp hfr
  have hkeys : (assocSet s.nodes fid node).map Prod.fst
      = s.nodes.map Prod.fst ++ [fid] := keys_assocSet_fresh _ _ _ hfr
  refine ⟨hkeys, ?_, ?_, ?_, ?_, ?_, ?_, ?_⟩
  · dsimp only
    rw [hkeys]
    refine List.nodup_append.mpr ⟨h.nodes_nodup, List.nodup_singleton _, ?_⟩
    intro a ha hb
    have he : a = fid := by simpa using hb
    exact hfid_not (he ▸ ha)
  · unfold childrenOf
    dsimp only
    rw [assocLookup_assocSet_self]
    simp [hnch]
  · intro q hq
    unfold childrenOf
    dsimp only
    rw [assocLookup_assocSet_ne _ _ _ _ hq]
  · intro x
    unfold childCount
    dsimp only
    have hs := sum_map_assocSet_fresh s.nodes fid node
      (fun nd => nd.children.count x) hfr
    dsimp only at hs
    rw [hnch] at hs
    simpa using hs
  · intro kv hkv cid hcid
    dsimp only at hkv
    rcases mem_assocSet_sub _ _ _ _ hkv with hkv | hkv
    · exact h.child_mem kv hkv cid hcid
    · subst hkv
      dsimp only at hcid
      rw [hnch] at hcid
      simp at hcid
  · exact bucketCount_eq_zero s fid
      (fun b hb hx => hfid_not (h.bucket_mem b hb fid hx))
  · exact childCount_eq_zero s fid
      (fun kv hkv hx => hfid_not (h.child_mem kv hkv fid hx))

/-- `add_node`, branch: truthy parent id naming an existing node — the
fresh node is attached as one child slot of that parent. -/
theorem PreInv_attach_case (s : CMState) (g : List (String × Bool))
    (fid pid : String) (node : ENode) (h : TreeInv s g)
    (hfr : assocLookup s.nodes fid = none) (hnch : node.children = [])
    (hne : pid ≠ fid) (hpm : pid ∈ s.nodes.map Prod.fst) :
    PreInv (attach_to_parent { s with nodes := assocSet s.nodes fid node } fid pid)
      (g ++ [(fid, true)]) fid := by
  obtain ⟨hkeys1, hnd1, hchfid, hchne, hcc1, hcm1, hbf0, hcf0⟩ :=
    insert_fresh_facts s g fid node h hfr hnch
  obtain ⟨hg2keys, hg2fid, hg2old, hgne, hg2mem⟩ :=
    ghost_append_facts s g fid true h hfr
  have hfid_not : fid ∉ s.nodes.map Prod.fst := (assocLookup_eq_none_iff _ _).mp hfr
  set s1 : CMState := { s with nodes := assocSet s.nodes fid node } with hs1
  have horph1 : s1.orphaned = s.orphaned := by rw [hs1]
  have hroot1 : s1.root = s.root := by rw [hs1]
  have hpm1 : (assocLookup s1.nodes pid).isSome = true := by
    rw [assocLookup_isSome_iff_mem, hkeys1]
    exact List.mem_append_left _ hpm
  have hnotin : fid ∉ childrenOf s1 pid := by
    rw [hchne pid hne]
    intro hmem
    exact hfid_not (mem_childrenOf_keys s h.child_mem pid fid hmem)
  have hstep := attach_step s1 fid pid hpm1 hnotin
  have hparts := attach_to_parent_parts s1 fid pid
  set s2 : CMState := attach_to_parent s1 fid pid with hs2
  have hkeys2 : s2.nodes.map Prod.fst = s.nodes.map Prod.fst ++ [fid] := by
    rw [hstep.2.2, hkeys1]
  have hbc2 : ∀ x, bucketCount s2 x = bucketCount s x := by
    intro x
    unfold bucketCount
    rw [hparts.1, horph1]
  have hcc2 : ∀ x, childCount s2 x
      = childCount s x + (if x = fid then 1 else 0) := by
    intro x
    rw [hstep.2.1 x, hcc1 x]
  have horph2 : s2.orphaned = s.orphaned := by rw [hparts.1, horph1]
  have hroot2 : s2.root = s.root := by rw [hparts.2.1, hroot1]
  refine ⟨?_, ?_, ?_, ?_, ?_, ?_, ?_, ?_, ?_, ?_, ?_, ?_⟩
  · rw [hg2keys, h.created_dom, hkeys2]
  · rw [hstep.2.2]
    exact hnd1
  · rw [horph2]
    exact h.orph_nodup
  · intro b hb
    rw [horph2] at hb
    by_cases hbf : b.1 = fid
    · exact Or.inl hbf
    · right
      rw [assocLookup_eq_none_iff, hkeys2]
      intro hmem
      rcases List.mem_append.mp hmem with hmem | hmem
      · exact absurd hmem ((assocLookup_eq_none_iff _ _).mp (h.orph_key_fresh b hb))
      · exact hbf (by simpa using hmem)
  · rw [horph2]
    exact h.orph_nonempty
  · intro b hb nid hnid
    rw [horph2] at hb
    rw [hkeys2]
    exact List.mem_append_left _ (h.bucket_mem b hb nid hnid)
  · intro kv hkv cid hcid
    rw [hkeys2]
    refine attach_child_mem s1 fid pid
      (fun z => z ∈ s.nodes.map Prod.fst ++ [fid]) ?_ ?_ kv hkv cid hcid
    · intro kv' hkv' cid' hcid'
      exact List.mem_append_left _ (hcm1 kv' hkv' cid' hcid')
    · exact List.mem_append_right _ (by simp)
  · intro r hroot
    rw [hroot2] at hroot
    have hrk : r ∈ g.map Prod.fst := by
      rw [h.created_dom]
      exact (h.root_counts r hroot).1
    rw [hg2old r hrk]
    exact h.root_flags r hroot
  · intro r hroot
    rw [hroot2] at hroot
    obtain ⟨hrm, hrb, hrc⟩ := h.root_counts r hroot
    have hrne : r ≠ fid := by
      intro he
      exact hfid_not (he ▸ hrm)
    refine ⟨by rw [hkeys2]; exact List.mem_append_left _ hrm, ?_, ?_⟩
    · rw [hbc2]
      exact hrb
    · rw [hcc2, if_neg hrne]
      omega
  · intro p hp
    rcases hg2mem p hp with hp | hp
    · have hpne : p.1 ≠ fid := hgne p hp
      constructor
      · intro ht
        have := (h.counts p hp).1 ht
        rw [hbc2, hcc2, if_neg hpne]
        omega
      · intro hf
        have := (h.counts p hp).2 hf
        rw [hbc2, hcc2, if_neg hpne]
        constructor
        · omega
        · omega
    · subst hp
      constructor
      · intro _
        rw [hbc2, hcc2, if_pos rfl]
        dsimp only
        omega
      · intro hf
        exact Bool.noConfusion hf
  · rw [hkeys2]
    exact List.mem_append_right _ (by simp)
  · intro x hx
    rw [childrenOf_attach_ne s1 fid pid fid (Ne.symm hne), hchfid] at hx
    simp at hx

/-- `add_node`, branch: truthy parent id naming no node — the fresh node
goes into exactly one orphan-bucket slot keyed by the missing parent. -/
theorem PreInv_orphan_case (s : CMState) (g : List (String × Bool))
    (fid pid : String) (node : ENode) (h : TreeInv s g)
    (hfr : assocLookup s.nodes fid = none) (hnch : node.children = [])
    (hne : pid ≠ fid) (hpnone : assocLookup s.nodes pid = none) :
    PreInv (handle_orphaned { s with nodes := assocSet s.nodes fid node } fid pid)
      (g ++ [(fid, true)]) fid := by
  obtain ⟨hkeys1, hnd1, hchfid, hchne, hcc1, hcm1, hbf0, hcf0⟩ :=
    insert_fresh_facts s g fid node h hfr hnch
  obtain ⟨hg2keys, hg2fid, hg2old, hgne, hg2mem⟩ :=
    ghost_append_facts s g fid true h hfr
  have hfid_not : fid ∉ s.nodes.map Prod.fst := (assocLookup_eq_none_iff _ _).mp hfr
  set s1 : CMState := { s with nodes := assocSet s.nodes fid node } with hs1
  have horph1 : s1.orphaned = s.orphaned := by rw [hs1]
  have hroot1 : s1.root = s.root := by rw [hs1]
  have hbc1 : ∀ x, bucketCount s1 x = bucketCount s x := by
    intro x
    unfold bucketCount
    rw [horph1]
  have hbko1 : bucketOf s1 pid = bucketOf s pid := by
    unfold bucketOf
    rw [horph1]
  have hspec := handle_orphaned_spec s1 fid pid
  have hcnts := handle_orphaned_counts s1 fid pid
  have hsub := handle_orphaned_mem_sub s1 fid pid
  have hkeysor := handle_orphaned_keys s1 fid pid
  set s2 : CMState := handle_orphaned s1 fid pid with hs2
  have hnodes2 : s2.nodes = s1.nodes := hspec.2.2.1
  have hroot2 : s2.root = s.root := by rw [hspec.2.2.2.1, hroot1]
  have hkeys2 : s2.nodes.map Prod.fst = s.nodes.map Prod.fst ++ [fid] := by
    rw [hnodes2, hkeys1]
  have hbc2 : ∀ x, bucketCount s2 x
      = bucketCount s x + (if x = fid then 1 else 0) := by
    intro x
    rw [hcnts.1 x, hbc1 x]
  have hcc2 : ∀ x, childCount s2 x = childCount s x := by
    intro x
    rw [hcnts.2 x, hcc1 x]
  refine ⟨?_, ?_, ?_, ?_, ?_, ?_, ?_, ?_, ?_, ?_, ?_, ?_⟩
  · rw [hg2keys, h.created_dom, hkeys2]
  · rw [hnodes2]
    exact hnd1
  · rcases hkeysor with hk | hk
    · rw [hk, horph1]
      exact h.orph_nodup
    · rw [hk.1, horph1]
      refine List.nodup_append.mpr ⟨h.orph_nodup, List.nodup_singleton _, ?_⟩
      intro a ha hb
      have he : a = pid := by simpa using hb
      rw [horph1] at hk
      exact hk.2 (he ▸ ha)
  · intro b hb
    rcases hsub b hb with hbo | hbo
    · rw [horph1] at hbo
      by_cases hbf : b.1 = fid
      · exact Or.inl hbf
      · right
        rw [assocLookup_eq_none_iff, hkeys2]
        intro hmem
        rcases List.mem_append.mp hmem with hmem | hmem
        · exact absurd hmem
            ((assocLookup_eq_none_iff _ _).mp (h.orph_key_fresh b hbo))
        · exact hbf (by simpa using hmem)
    · right
      rw [hbo]
      dsimp only
      rw [hnodes2, hs1]
      dsimp only
      rw [assocLookup_assocSet_ne _ _ _ _ hne]
      exact hpnone
  · intro b hb
    rcases hsub b hb with hbo | hbo
    · rw [horph1] at hbo
      exact h.orph_nonempty b hbo
    · rw [hbo]
      simp
  · intro b hb nid hnid
    rw [hkeys2]
    rcases hsub b hb with hbo | hbo
    · rw [horph1] at hbo
      exact List.mem_append_left _ (h.bucket_mem b hbo nid hnid)
    · rw [hbo] at hnid
      dsimp only at hnid
      rcases List.mem_append.mp hnid with hnid | hnid
      · rw [hbko1] at hnid
        exact List.mem_append_left _ (mem_bucketOf_keys s h.bucket_mem pid nid hnid)
      · have he : nid = fid := by simpa using hnid
        exact List.mem_append_right _ (by simp [he])
  · intro kv hkv cid hcid
    rw [hnodes2] at hkv
    rw [hkeys2]
    exact List.mem_append_left _ (hcm1 kv hkv cid hcid)
  · intro r hroot
    rw [hroot2] at hroot
    have hrk : r ∈ g.map Prod.fst := by
      rw [h.created_dom]
      exact (h.root_counts r hroot).1
    rw [hg2old r hrk]
    exact h.root_flags r hroot
  · intro r hroot
    rw [hroot2] at hroot
    obtain ⟨hrm, hrb, hrc⟩ := h.root_counts r hroot
    have hrne : r ≠ fid := by
      intro he
      exact hfid_not (he ▸ hrm)
    refine ⟨by rw [hkeys2]; exact List.mem_append_left _ hrm, ?_, ?_⟩
    · rw [hbc2, if_neg hrne]
      omega
    · rw [hcc2]
      exact hrc
  · intro p hp
    rcases hg2mem p hp with hp | hp
    · have hpne : p.1 ≠ fid := hgne p hp
      constructor
      · intro ht
        have := (h.counts p hp).1 ht
        rw [hbc2, hcc2, if_neg hpne]
        omega
      · intro hf
        have := (h.counts p hp).2 hf
        rw [hbc2, hcc2, if_neg hpne]
        exact ⟨by omega, by omega⟩
    · subst hp
      constructor
      · intro _
        rw [hbc2, hcc2, if_pos rfl]
        dsimp only
        omega
      · intro hf
        exact Bool.noConfusion hf
  · rw [hkeys2]
    exact List.mem_append_right _ (by simp)
  · intro x hx
    have hch2 : childrenOf s2 fid = [] := by
      unfold childrenOf at hchfid ⊢
      rw [hnodes2]
      exact hchfid
    rw [hch2] at hx
    simp at hx

/-- `add_node`, branch: parentless creation into an empty tree — the fresh
node becomes the root, in no bucket and no child list. -/
theorem PreInv_newroot_case (s : CMState) (g : List (String × Bool))
    (fid : String) (node : ENode) (h : TreeInv s g)
    (hfr : assocLookup s.nodes fid = none) (hnch : node.children = []) :
    PreInv { { s with nodes := assocSet s.nodes fid node } with root := some fid }
      (g ++ [(fid, false)]) fid := by
  obtain ⟨hkeys1, hnd1, hchfid, hchne, hcc1, hcm1, hbf0, hcf0⟩ :=
    insert_fresh_facts s g fid node h hfr hnch
  obtain ⟨hg2keys, hg2fid, hg2old, hgne, hg2mem⟩ :=
    ghost_append_facts s g fid false h hfr
  have hfid_not : fid ∉ s.nodes.map Prod.fst := (assocLookup_eq_none_iff _ _).mp hfr
  set s1 : CMState := { s with nodes := assocSet s.nodes fid node } with hs1
  set s2 : CMState := { s1 with root := some fid } with hs2
  have hnodes2 : s2.nodes = s1.nodes := by rw [hs2]
  have horph2 : s2.orphaned = s.orphaned := by rw [hs2, hs1]
  have hroot2 : s2.root = some fid := by rw [hs2]
  have hkeys2 : s2.nodes.map Prod.fst = s.nodes.map Prod.fst ++ [fid] := by
    rw [hnodes2, hkeys1]
  have hbc2 : ∀ x, bucketCount s2 x = bucketCount s x := by
    intro x
    unfold bucketCount
    rw [horph2]
  have hcc2 : ∀ x, childCount s2 x = childCount s x := by
    intro x
    unfold childCount
    rw [hnodes2]
    have := hcc1 x
    unfold childCount at this
    exact this
  refine ⟨?_, ?_, ?_, ?_, ?_, ?_, ?_, ?_, ?_, ?_, ?_, ?_⟩
  · rw [hg2keys, h.created_dom, hkeys2]
  · rw [hnodes2]
    exact hnd1
  · rw [horph2]
    exact h.orph_nodup
  · intro b hb
    rw [horph2] at hb
    by_cases hbf : b.1 = fid
    · exact Or.inl hbf
    · right
      rw [assocLookup_eq_none_iff, hkeys2]
      intro hmem
      rcases List.mem_append.mp hmem with hmem | hmem
      · exact absurd hmem
          ((assocLookup_eq_none_iff _ _).mp (h.orph_key_fresh b hb))
      · exact hbf (by simpa using hmem)
  · rw [horph2]
    exact h.orph_nonempty
  · intro b hb nid hnid
    rw [horph2] at hb
    rw [hkeys2]
    exact List.mem_append_left _ (h.bucket_mem b hb nid hnid)
  · intro kv hkv cid hcid
    rw [hnodes2] at hkv
    rw [hkeys2]
    exact List.mem_append_left _ (hcm1 kv hkv cid hcid)
  · intro r hroot
    rw [hroot2] at hroot
    have he : r = fid := by injection hroot.symm
    rw [he]
    exact hg2fid
  · intro r hroot
    rw [hroot2] at hroot
    have he : r = fid := by injection hroot.symm
    subst he
    refine ⟨by rw [hkeys2]; exact List.mem_append_right _ (by simp), ?_, ?_⟩
    · rw [hbc2]
      exact hbf0
    · rw [hcc2]
      exact hcf0
  · intro p hp
    rcases hg2mem p hp with hp | hp
    · constructor
      · intro ht
        have := (h.counts p hp).1 ht
        rw [hbc2, hcc2]
        omega
      · intro hf
        have := (h.counts p hp).2 hf
        rw [hbc2, hcc2]
        exact ⟨by omega, by omega⟩
    · subst hp
      constructor
      · intro ht
        exact Bool.noConfusion ht
      · intro _
        rw [hbc2, hcc2]
        dsimp only
        exact ⟨hbf0, by omega⟩
  · rw [hkeys2]
    exact List.mem_append_right _ (by simp)
  · intro x hx
    have hch2 : childrenOf s2 fid = [] := by
      unfold childrenOf at hchfid ⊢
      rw [hnodes2]
      exact hchfid
    rw [hch2] at hx
    simp at hx

/-- `add_node`, branch: parentless creation while a root already exists and
is kept — the fresh node is in no bucket and no child list. -/
theorem PreInv_keeproot_case (s : CMState) (g : List (String × Bool))
    (fid : String) (node : ENode) (h : TreeInv s g)
    (hfr : assocLookup s.nodes fid = none) (hnch : node.children = []) :
    PreInv { s with nodes := assocSet s.nodes fid node }
      (g ++ [(fid, false)]) fid := by
  obtain ⟨hkeys1, hnd1, hchfid, hchne, hcc1, hcm1, hbf0, hcf0⟩ :=
    insert_fresh_facts s g fid node h hfr hnch
  obtain ⟨hg2keys, hg2fid, hg2old, hgne, hg2mem⟩ :=
    ghost_append_facts s g fid false h hfr
  have hfid_not : fid ∉ s.nodes.map Prod.fst := (assocLookup_eq_none_iff _ _).mp hfr
  set s1 : CMState := { s with nodes := assocSet s.nodes fid node } with hs1
  have horph1 : s1.orphaned = s.orphaned := by rw [hs1]
  have hroot1 : s1.root = s.root := by rw [hs1]
  have hbc1 : ∀ x, bucketCount s1 x = bucketCount s x := by
    intro x
    unfold bucketCount
    rw [horph1]
  refine ⟨?_, ?_, ?_, ?_, ?_, ?_, ?_, ?_, ?_, ?_, ?_, ?_⟩
  · rw [hg2keys, h.created_dom, hkeys1]
  · exact hnd1
  · rw [horph1]
    exact h.orph_nodup
  · intro b hb
    rw [horph1] at hb
    by_cases hbf : b.1 = fid
    · exact Or.inl hbf
    · right
      rw [assocLookup_eq_none_iff, hkeys1]
      intro hmem
      rcases List.mem_append.mp hmem with hmem | hmem
      · exact absurd hmem
          ((assocLookup_eq_none_iff _ _).mp (h.orph_key_fresh b hb))
      · exact hbf (by simpa using hmem)
  · rw [horph1]
    exact h.orph_nonempty
  · intro b hb nid hnid
    rw [horph1] at hb
    rw [hkeys1]
    exact List.mem_append_left _ (h.bucket_mem b hb nid hnid)
  · intro kv hkv cid hcid
    rw [hkeys1]
    exact List.mem_append_left _ (hcm1 kv hkv cid hcid)
  · intro r hroot
    rw [hroot1] at hroot
    have hrk : r ∈ g.map Prod.fst := by
      rw [h.created_dom]
      exact (h.root_counts r hroot).1
    rw [hg2old r hrk]
    exact h.root_flags r hroot
  · intro r hroot
    rw [hroot1] at hroot
    obtain ⟨hrm, hrb, hrc⟩ := h.root_counts r hroot
    refine ⟨by rw [hkeys1]; exact List.mem_append_left _ hrm, ?_, ?_⟩
    · rw [hbc1]
      exact hrb
    · rw [hcc1]
      exact hrc
  · intro p hp
    rcases hg2mem p hp with hp | hp
    · constructor
      · intro ht
        have := (h.counts p hp).1 ht
        rw [hbc1, hcc1]
        omega
      · intro hf
        have := (h.counts p hp).2 hf
        rw [hbc1, hcc1]
        exact ⟨by omega, by omega⟩
    · subst hp
      constructor
      · intro ht
        exact Bool.noConfusion ht
      · intro _
        rw [hbc1, hcc1]
        dsimp only
        exact ⟨hbf0, by omega⟩
  · rw [hkeys1]
    exact List.mem_append_right _ (by simp)
  · intro x hx
    rw [hchfid] at hx
    simp at hx

/-- `add_node`, branch: parentless creation adopting the old root — the old
root moves into the fresh node's single child slot and the fresh node
becomes root, itself in no bucket and no child list. -/
theorem PreInv_rootswap_case (s : CMState) (g : List (String × Bool))
    (fid rid : String) (node : ENode) (h : TreeInv s g)
    (hfr : assocLookup s.nodes fid = none) (hnch : node.children = [])
    (hroot : s.root = some rid) :
    PreInv { attach_to_parent { s with nodes := assocSet s.nodes fid node } rid fid
        with root := some fid } (g ++ [(fid, false)]) fid := by
  obtain ⟨hkeys1, hnd1, hchfid, hchne, hcc1, hcm1, hbf0, hcf0⟩ :=
    insert_fresh_facts s g fid node h hfr hnch
  obtain ⟨hg2keys, hg2fid, hg2old, hgne, hg2mem⟩ :=
    ghost_append_facts s g fid false h hfr
  have hfid_not : fid ∉ s.nodes.map Prod.fst := (assocLookup_eq_none_iff _ _).mp hfr
  have hgnd : (g.map Prod.fst).Nodup := h.created_dom ▸ h.nodes_nodup
  obtain ⟨hrm, hrb, hrc⟩ := h.root_counts rid hroot
  have hrne : rid ≠ fid := by
    intro he
    exact hfid_not (he ▸ hrm)
  have hridg : (rid, false) ∈ g := mem_of_assocLookup _ _ _ (h.root_flags rid hroot)
  set s1 : CMState := { s with nodes := assocSet s.nodes fid node } with hs1
  have horph1 : s1.orphaned = s.orphaned := by rw [hs1]
  have hsome1 : (assocLookup s1.nodes fid).isSome = true := by
    rw [assocLookup_isSome_iff_mem, hkeys1]
    exact List.mem_append_right _ (by simp)
  have hnotin : rid ∉ childrenOf s1 fid := by
    rw [hchfid]
    simp
  have hstep := attach_step s1 rid fid hsome1 hnotin
  have hparts := attach_to_parent_parts s1 rid fid
  set s2a : CMState := attach_to_parent s1 rid fid with hs2a
  set s2 : CMState := { s2a with root := some fid } with hs2
  have hnodes2 : s2.nodes = s2a.nodes := by rw [hs2]
  have horph2 : s2.orphaned = s.orphaned := by
    rw [hs2]
    dsimp only
    rw [hparts.1, horph1]
  have hroot2 : s2.root = some fid := by rw [hs2]
  have hkeys2 : s2.nodes.map Prod.fst = s.nodes.map Prod.fst ++ [fid] := by
    rw [hnodes2, hstep.2.2, hkeys1]
  have hbc2 : ∀ x, bucketCount s2 x = bucketCount s x := by
    intro x
    unfold bucketCount
    rw [horph2]
  have hcc2 : ∀ x, childCount s2 x
      = childCount s x + (if x = rid then 1 else 0) := by
    intro x
    have hcs2 : childCount s2 x = childCount s2a x := by
      unfold childCount
      rw [hnodes2]
    rw [hcs2, hstep.2.1 x, hcc1 x]
  refine ⟨?_, ?_, ?_, ?_, ?_, ?_, ?_, ?_, ?_, ?_, ?_, ?_⟩
  · rw [hg2keys, h.created_dom, hkeys2]
  · rw [hnodes2, hstep.2.2]
    exact hnd1
  · rw [horph2]
    exact h.orph_nodup
  · intro b hb
    rw [horph2] at hb
    by_cases hbf : b.1 = fid
    · exact Or.inl hbf
    · right
      rw [assocLookup_eq_none_iff, hkeys2]
      intro hmem
      rcases List.mem_append.mp hmem with hmem | hmem
      · exact absurd hmem
          ((assocLookup_eq_none_iff _ _).mp (h.orph_key_fresh b hb))
      · exact hbf (by simpa using hmem)
  · rw [horph2]
    exact h.orph_nonempty
  · intro b hb nid hnid
    rw [horph2] at hb
    rw [hkeys2]
    exact List.mem_append_left _ (h.bucket_mem b hb nid hnid)
  · intro kv hkv cid hcid
    rw [hnodes2] at hkv
    rw [hkeys2]
    refine attach_child_mem s1 rid fid
      (fun z => z ∈ s.nodes.map Prod.fst ++ [fid]) ?_ ?_ kv hkv cid hcid
    · intro kv' hkv' cid' hcid'
      exact List.mem_append_left _ (hcm1 kv' hkv' cid' hcid')
    · exact List.mem_append_left _ hrm
  · intro r hroot'
    rw [hroot2] at hroot'
    have he : r = fid := by injection hroot'.symm
    rw [he]
    exact hg2fid
  · intro r hroot'
    rw [hroot2] at hroot'
    have he : r = fid := by injection hroot'.symm
    subst he
    refine ⟨by rw [hkeys2]; exact List.mem_append_right _ (by simp), ?_, ?_⟩
    · rw [hbc2]
      exact hbf0
    · rw [hcc2, if_neg (Ne.symm hrne)]
      omega
  · intro p hp
    rcases hg2mem p hp with hp | hp
    · by_cases hpr : p.1 = rid
      · have hpf : p.2 = false := by
          obtain ⟨pa, pb⟩ := p
          dsimp only at hpr ⊢
          subst hpr
          exact pair_unique_of_nodup g hgnd pa pb false hp hridg
        constructor
        · intro ht
          rw [hpf] at ht
          exact Bool.noConfusion ht
        · intro _
          rw [hbc2, hcc2, hpr, if_pos rfl]
          exact ⟨hrb, by omega⟩
      · constructor
        · intro ht
          have := (h.counts p hp).1 ht
          rw [hbc2, hcc2, if_neg hpr]
          omega
        · intro hf
          have := (h.counts p hp).2 hf
          rw [hbc2, hcc2, if_neg hpr]
          exact ⟨by omega, by omega⟩
    · subst hp
      constructor
      · intro ht
        exact Bool.noConfusion ht
      · intro _
        rw [hbc2, hcc2]
        dsimp only
        rw [if_neg (Ne.symm hrne)]
        exact ⟨hbf0, by omega⟩
  · rw [hkeys2]
    exact List.mem_append_right _ (by simp)
  · intro x hx
    have hch2 : childrenOf s2 fid = [rid] := by
      have he : childrenOf s2 fid = childrenOf s2a fid := by
        unfold childrenOf
        rw [hnodes2]
      rw [he, hstep.1, hchfid]
      rfl
    rw [hch2] at hx
    have he : x = rid := by simpa using hx
    rw [he]
    exact List.mem_append_left _ hridg

/-- A well-formed creation preserves the placement invariant, extending the
ghost record by the created id and its parent flag. -/
theorem TreeInv_create (s : CMState) (g : List (String × Bool)) (pn : NodeSpec)
    (pid : Option String) (fid : String) (t : Nat) (iter : List String)
    (h : TreeInv s g) (hfr : assocLookup s.nodes fid = none)
    (hpid : pid ≠ some fid) (hperm : iter.Perm (bucketOf s fid)) :
    TreeInv (add_node s pn pid fid t iter).1 (g ++ [(fid, truthyOptStr pid)]) := by
  have hadopt : ∀ s2 : CMState,
      PreInv s2 (g ++ [(fid, truthyOptStr pid)]) fid →
      assocLookup s2.orphaned fid = assocLookup s.orphaned fid →
      TreeInv (adopt_waiting s2 fid iter) (g ++ [(fid, truthyOptStr pid)]) := by
    intro s2 hpre hlk
    refine TreeInv_adopt s2 _ fid iter hpre ?_
    have hbeq : bucketOf s2 fid = bucketOf s fid := by
      unfold bucketOf
      rw [hlk]
    rw [hbeq]
    exact hperm
  unfold add_node
  dsimp only
  refine TreeInv_trigger _ _ _ ?_
  cases pid with
  | none =>
      have hf : truthyOptStr none = false := rfl
      rw [hf]
      simp only [Bool.false_eq_true, if_false]
      split
      · exact hadopt _ (PreInv_newroot_case s g fid _ h hfr rfl) rfl
      · next rid hr =>
          split
          · next rnode hrn =>
              split
              · next hpe =>
                  refine hadopt _
                    (PreInv_rootswap_case s g fid rid _ h hfr rfl hr) ?_
                  rw [(attach_to_parent_parts _ rid fid).1]
              · exact hadopt _ (PreInv_keeproot_case s g fid _ h hfr rfl) rfl
          · exact hadopt _ (PreInv_keeproot_case s g fid _ h hfr rfl) rfl
  | some p =>
      cases hpt : truthyOptStr (some p) with
      | true =>
          rw [hpt] at hadopt
          simp only [if_true]
          have hpfid : p ≠ fid := by
            intro he
            exact hpid (by rw [he])
          cases hlp : assocLookup
              (assocSet s.nodes fid (mkNode pn (some p) fid t)) p with
          | some pnode =>
              dsimp only
              have hpmem : p ∈ s.nodes.map Prod.fst := by
                rw [← assocLookup_isSome_iff_mem]
                rw [assocLookup_assocSet_ne _ _ _ _ hpfid] at hlp
                rw [hlp]
                rfl
              refine hadopt _
                (PreInv_attach_case s g fid p _ h hfr rfl hpfid hpmem) ?_
              rw [(attach_to_parent_parts _ fid p).1]
          | none =>
              dsimp only
              have hlp' : assocLookup s.nodes p = none := by
                rw [assocLookup_assocSet_ne _ _ _ _ hpfid] at hlp
                exact hlp
              refine hadopt _
                (PreInv_orphan_case s g fid p _ h hfr rfl hpfid hlp') ?_
              rw [(handle_orphaned_spec _ fid p).2.1 fid (Ne.symm hpfid)]
      | false =>
          rw [hpt] at hadopt
          simp only [Bool.false_eq_true, if_false]
          split
          · exact hadopt _ (PreInv_newroot_case s g fid _ h hfr rfl) rfl
          · next rid hr =>
              split
              · next rnode hrn =>
                  split
                  · next hpe =>
                      refine hadopt _
                        (PreInv_rootswap_case s g fid rid _ h hfr rfl hr) ?_
                      rw [(attach_to_parent_parts _ rid fid).1]
                  · exact hadopt _ (PreInv_keeproot_case s g fid _ h hfr rfl) rfl
              · exact hadopt _ (PreInv_keeproot_case s g fid _ h hfr rfl) rfl

/-- The freshly initialized tracker satisfies the placement invariant with
an empty creation record. -/
theorem TreeInv_initial (enabled : Bool) : TreeInv (initialState enabled) [] := by
  refine ⟨rfl, List.nodup_nil, List.nodup_nil, ?_, ?_, ?_, ?_, ?_, ?_, ?_⟩
  · intro b hb
    exact absurd hb (List.not_mem_nil b)
  · intro b hb
    exact absurd hb (List.not_mem_nil b)
  · intro b hb
    exact absurd hb (List.not_mem_nil b)
  · intro kv hkv
    exact absurd hkv (List.not_mem_nil kv)
  · intro r hr
    exact Option.noConfusion hr
  · intro r hr
    exact Option.noConfusion hr
  · intro p hp
    exact absurd hp (List.not_mem_nil p)

/-- One well-formed public mutation preserves the placement invariant. -/
theorem TreeInv_exec (s : CMState) (g : List (String × Bool)) (op : Op)
    (h : TreeInv s g) (hwf : wfOp s op = true) :
    TreeInv (execOp s op) (g ++ createsOf [op]) := by
  cases op with
  | create pn pid fid t iter =>
      unfold wfOp at hwf
      simp only [Bool.and_eq_true, decide_eq_true_eq, bne_iff_ne, ne_eq,
        Option.isNone_iff_eq_none] at hwf
      obtain ⟨⟨⟨hne, hfr⟩, hpid⟩, hperm⟩ := hwf
      exact TreeInv_create s g pn pid fid t iter h hfr hpid hperm
  | complete id out t =>
      show TreeInv (complete_node s id out t) (g ++ [])
      rw [List.append_nil]
      exact TreeInv_complete s g id out t h
  | addMeta id md =>
      show TreeInv (add_metadata s id md) (g ++ [])
      rw [List.append_nil]
      exact TreeInv_addMeta s g id md h
  | patch id ups =>
      show TreeInv (update_node s id ups) (g ++ [])
      rw [List.append_nil]
      exact TreeInv_patch s g id ups h

/-- A well-formed run of public mutations preserves the placement
invariant, extending the creation record by the run's creations. -/
theorem TreeInv_runOps (ops : List Op) :
    ∀ (s : CMState) (g : List (String × Bool)),
    TreeInv s g → wfOps s ops = true →
    TreeInv (runOps s ops) (g ++ createsOf ops) := by
  induction ops with
  | nil =>
      intro s g h _
      rw [show createsOf [] = [] from rfl, List.append_nil]
      exact h
  | cons op rest ih =>
      intro s g h hwf
      unfold wfOps at hwf
      rw [Bool.and_eq_true] at hwf
      have hstep := TreeInv_exec s g op h hwf.1
      have hrec := ih (execOp s op) (g ++ createsOf [op]) hstep hwf.2
      rw [show runOps s (op :: rest) = runOps (execOp s op) rest from rfl]
      have hassoc : g ++ createsOf (op :: rest)
          = (g ++ createsOf [op]) ++ createsOf rest := by
        rw [List.append_assoc]
        congr 1
        cases op <;> rfl
      rw [hassoc]
      exact hrec

/--
C4, amended.  Along any run of public mutations from a fresh manager (with
the runtime guarantees: fresh non-empty UUIDs, no self-parenting, bucket
iteration a permutation of the bucket), the created ids are exactly the
store keys, and each created node's placement is governed by how it was
created: created with a truthy parent id, it sits in exactly one orphan
bucket slot or exactly one parent child list slot, never both and never
neither; created parentless, it sits in no orphan bucket and in at most
one child list slot (the old root adopted by a root exchange) — possibly
in neither place, as a parentless non-root node.
-/
theorem c4_amended (enabled : Bool) (ops : List Op)
    (hwf : wfOps (initialState enabled) ops = true) :
    (createsOf ops).map Prod.fst
        = (runOps (initialState enabled) ops).nodes.map Prod.fst ∧
    ∀ p ∈ createsOf ops,
      (p.2 = true →
        (bucketCount (runOps (initialState enabled) ops) p.1 = 1 ∧
         childCount (runOps (initialState enabled) ops) p.1 = 0) ∨
        (bucketCount (runOps (initialState enabled) ops) p.1 = 0 ∧
         childCount (runOps (initialState enabled) ops) p.1 = 1)) ∧
      (p.2 = false →
        bucketCount (runOps (initialState enabled) ops) p.1 = 0 ∧
        childCount (runOps (initialState enabled) ops) p.1 ≤ 1) := by
  have h := TreeInv_runOps ops (initialState enabled) [] (TreeInv_initial enabled) hwf
  rw [List.nil_append] at h
  refine ⟨h.created_dom, ?_⟩
  intro p hp
  have hc := h.counts p hp
  constructor
  · intro ht
    have := hc.1 ht
    omega
  · exact hc.2

/-- Witness for C4 amended: the two-creation run of the counterexample is
well-formed, and the theorem applied to it places the second parentless
node in no bucket and at most one child slot. -/
theorem c4_amended_witness :
    wfOps (initialState false) c4Ops = true ∧
    bucketCount (runOps (initialState false) c4Ops) "rb" = 0 ∧
    childCount (runOps (initialState false) c4Ops) "rb" ≤ 1 := by
  refine ⟨rfl, ?_⟩
  have h := c4_amended false c4Ops rfl
  have hm : ("rb", false) ∈ createsOf c4Ops := by
    show ("rb", false) ∈ [("ra", false), ("rb", false)]
    simp
  exact (h.2 ("rb", false) hm).2 rfl

end GensxCheckpoint
